import Mathlib

/-!
Verification of `maze_solver_interactive.py`
============================================

Shallow embedding of the core of the interactive maze solver:
the grid model (`Maze`), the random maze generator (`Maze.random`),
the neighbour query (`Maze.neighbors`), path reconstruction
(`reconstruct_path`), the two search routines (`bfs`,
`dfs_backtracking`), the rendering overlay (`draw_with_path`), and the
retry-until-solvable loop of `main` (`retryAux` / `mainSolve`).

Modelling conventions:
* A Python coordinate pair (`Coord = Tuple[int, int]`) becomes `Int × Int`.
* The grid `List[List[str]]` of one-character strings becomes
  `List (List Char)`.
* Python's `random.Random` is modelled as a stream `Nat → ℚ` of draws;
  `rng.random()` draws are consumed in row-major order, one per cell, so
  the cell `(r, c)` of an `rows × cols` generation reads draw
  `r * cols + c`, and the `k`-th retry attempt reads draws offset by
  `(k - 1) * rows * cols`.  Comparisons against `density` are the only
  use the source makes of the drawn floats, so exact rationals model them.
* `raise ValueError(msg)` becomes `Except.error msg`.
* Python's unbounded `while` loops and the recursion of the inner `dfs`
  become fuel-indexed recursions; every fuel bound used below is proved
  (or chosen) large enough that the fuel-exhaustion branch is never the
  one the theorems rely on, and the fuel-exhaustion branches return the
  same shape of value as the genuine termination branches.
* A `dict` becomes an association list consed at the front, so
  `dictGet` (first match) sees the most recent binding, exactly like a
  Python dict where later assignments overwrite earlier ones.
* A `set` becomes a `Finset`.
-/


abbrev Coord : Type := Int × Int

/-- `grid[rc[0]][rc[1]]` for an in-bounds coordinate; the source only
indexes after its own bounds check, so the out-of-bounds default `' '`
is never consulted by any guarded access. -/
def cellAt (g : List (List Char)) (rc : Coord) : Char :=
  (g.getD rc.1.toNat []).getD rc.2.toNat ' '

/-- `grid[rc[0]][rc[1]] = ch`, the in-place list update of the source. -/
def setCell (g : List (List Char)) (rc : Coord) (ch : Char) : List (List Char) :=
  g.set rc.1.toNat ((g.getD rc.1.toNat []).set rc.2.toNat ch)

/-- The grid comprehension of `Maze.random`:
`[['#' if rng.random() < density else '.' for _ in range(cols)] for _ in range(rows)]`,
consuming one draw per cell in row-major order. -/
def genGrid (rows cols : Nat) (density : ℚ) (rng : Nat → ℚ) : List (List Char) :=
  (List.range rows).map (fun r =>
    (List.range cols).map (fun c => if rng (r * cols + c) < density then '#' else '.'))

/-- The `Maze` dataclass: a grid of `'#'`/`'.'` cells plus the two
endpoints.  The Python attribute `end` is called `end_` because `end` is
a Lean keyword. -/
structure Maze where
  grid : List (List Char)
  start : Coord
  end_ : Coord
deriving DecidableEq, Repr

/-- `Maze.random`: parameter validation followed by random wall
placement and the unconditional re-opening of the two endpoints. -/
def Maze.random (rows cols : Int) (start end_ : Coord) (density : ℚ) (rng : Nat → ℚ) :
    Except String Maze :=
  if rows ≤ 1 ∨ cols ≤ 1 then .error "rows and cols must be >= 2"
  else if ¬ (0 ≤ start.1 ∧ start.1 < rows ∧ 0 ≤ start.2 ∧ start.2 < cols) then
    .error "start out of bounds"
  else if ¬ (0 ≤ end_.1 ∧ end_.1 < rows ∧ 0 ≤ end_.2 ∧ end_.2 < cols) then
    .error "end out of bounds"
  else if start = end_ then .error "start and end cannot be the same cell"
  else if ¬ (0 ≤ density ∧ density < 1) then .error "density must be in [0.0, 1.0)"
  else
    .ok { grid := setCell (setCell (genGrid rows.toNat cols.toNat density rng) start '.') end_ '.',
          start := start, end_ := end_ }

/-- The bound `len(self.grid)` of the source's `neighbors` check. -/
def gridRows (m : Maze) : Nat := m.grid.length

/-- The bound `len(self.grid[0])` of the source's `neighbors` check. -/
def gridCols (m : Maze) : Nat := (m.grid.headD []).length

/-- In-bounds per the `neighbors` check:
`0 <= nr < len(self.grid) and 0 <= nc < len(self.grid[0])`. -/
def inB (m : Maze) (rc : Coord) : Prop :=
  0 ≤ rc.1 ∧ rc.1 < (gridRows m : Int) ∧ 0 ≤ rc.2 ∧ rc.2 < (gridCols m : Int)

instance (m : Maze) (rc : Coord) : Decidable (inB m rc) := by
  unfold inB; infer_instance

/-- `Maze.neighbors`: the loop over the four offsets
`(1,0), (-1,0), (0,1), (0,-1)` (down, up, right, left, in source order)
yields `(r+dr, c+dc)` exactly when the bounds check and the openness
check `grid[nr][nc] != '#'` pass; equivalently, it filters the four
candidate cells, in that fixed order. -/
def Maze.neighbors (m : Maze) (rc : Coord) : List Coord :=
  ([(rc.1 + 1, rc.2), (rc.1 - 1, rc.2), (rc.1, rc.2 + 1), (rc.1, rc.2 - 1)] :
    List Coord).filter (fun nb => decide (inB m nb ∧ cellAt m.grid nb ≠ '#'))

/-- Lookup in a parent dict modelled as an association list consed at
the front: the first (most recent) binding for a key wins, exactly like
assignment into a Python dict. -/
def dictGet (ps : List (Coord × Coord)) (c : Coord) : Option Coord :=
  match ps with
  | [] => none
  | (k, v) :: rest => if k = c then some v else dictGet rest c

/-- The `while cur != start` loop of `reconstruct_path`, with fuel.
Looking up a coordinate the parent dict does not hold (Python's
`KeyError`) and fuel exhaustion (a cyclic parent chain, on which the
Python loop would never terminate) both yield `none`. -/
def reconstructAux (parents : List (Coord × Coord)) (start : Coord) :
    Nat → Coord → List Coord → Option (List Coord)
  | 0, _, _ => none
  | fuel + 1, cur, path =>
    if cur = start then some path.reverse
    else
      match dictGet parents cur with
      | none => none
      | some p => reconstructAux parents start fuel p (path ++ [p])

/-- `reconstruct_path(parents, end, start)`.  The fuel
`parents.length + 1` is enough for every acyclic parent chain, because
such a chain visits pairwise distinct keys of `parents`
(`chain_length_le_parents` below). -/
def reconstruct_path (parents : List (Coord × Coord)) (end_ start : Coord) :
    Option (List Coord) :=
  reconstructAux parents start (parents.length + 1) end_ [end_]

/-- One step of the neighbour loop in the body of `bfs`: state is
`(queue, parents, visited)`; an unvisited neighbour is appended to the
queue, recorded in the parent dict, and marked visited. -/
def bfsStep (cur : Coord) (st : List Coord × List (Coord × Coord) × Finset Coord)
    (nb : Coord) : List Coord × List (Coord × Coord) × Finset Coord :=
  if nb ∈ st.2.2 then st else (st.1 ++ [nb], (nb, cur) :: st.2.1, insert nb st.2.2)

/-- The `while q` loop of `bfs`, with fuel.  (`bfsAux_spec` below shows
the fuel chosen in `bfs` always suffices: under the loop invariant the
fuel-exhaustion branch is never taken, so it coincides with the
frontier-exhausted branch in every actual run.) -/
def bfsAux (m : Maze) : Nat → List Coord → List (Coord × Coord) → Finset Coord →
    Option (List Coord) × Finset Coord
  | 0, _, _, visited => (none, visited)
  | _ + 1, [], _, visited => (none, visited)
  | fuel + 1, cur :: qs, parents, visited =>
    if cur = m.end_ then (reconstruct_path parents m.end_ m.start, visited)
    else
      let s := (m.neighbors cur).foldl (bfsStep cur) (qs, parents, visited)
      bfsAux m fuel s.1 s.2.1 s.2.2

/-- Fuel for `bfs`: each loop iteration strictly decreases
`2 * (|universe| - |visited|) + |queue|`, which starts below this bound. -/
def bfsFuel (m : Maze) : Nat := 2 * (gridRows m * gridCols m) + 2

/-- `bfs(maze)`: frontier `[start]`, visited `{start}`, empty parent map. -/
def bfs (m : Maze) : Option (List Coord) × Finset Coord :=
  bfsAux m (bfsFuel m) [m.start] [] {m.start}

/-- The state threaded through the inner recursive `dfs` of
`dfs_backtracking`: the `visited` set, the `parents` dict and the
`nonlocal found` flag. -/
structure DfsState where
  visited : Finset Coord
  parents : List (Coord × Coord)
  found : Bool
deriving DecidableEq

/-- The inner recursive `dfs(u)` of `dfs_backtracking`, with fuel
bounding the recursion depth.  Every nested call visits a previously
unvisited cell, and all visitable cells lie in the grid (or are `start`
itself), so the depth never exceeds `dfsFuel` below. -/
def dfsVisit (m : Maze) : Nat → DfsState → Coord → DfsState
  | 0, st, _ => st
  | fuel + 1, st, u =>
    if st.found then st
    else
      let st1 : DfsState := { st with visited := insert u st.visited }
      if u = m.end_ then { st1 with found := true }
      else
        (m.neighbors u).foldl
          (fun acc v =>
            if v ∈ acc.visited then acc
            else dfsVisit m fuel { acc with parents := (v, u) :: acc.parents } v)
          st1

/-- Fuel bounding the recursion depth of `dfsVisit`. -/
def dfsFuel (m : Maze) : Nat := gridRows m * gridCols m + 2

/-- `dfs_backtracking(maze)`: run the recursive search from `start`,
then reconstruct from the parent dict exactly when `found` was set. -/
def dfs_backtracking (m : Maze) : Option (List Coord) × Finset Coord :=
  let st := dfsVisit m (dfsFuel m) ⟨∅, [], false⟩ m.start
  if st.found then (reconstruct_path st.parents m.end_ m.start, st.visited)
  else (none, st.visited)

/-- Apply a per-cell rewrite to every cell of a grid, preserving each
row's length.  The two marking loops of `draw_with_path` write each cell
of their collection once, based only on that cell's current character,
so their net effect is this cell-wise map. -/
def mapGrid (g : List (List Char)) (f : Int → Int → Char → Char) : List (List Char) :=
  (List.range g.length).map (fun r =>
    (List.range (g.getD r []).length).map (fun c =>
      f (Int.ofNat r) (Int.ofNat c) ((g.getD r []).getD c ' ')))

/-- The visited-overlay loop of `draw_with_path`:
`if g[r][c] == '.': g[r][c] = '·'` for every visited cell. -/
def markVisited (g : List (List Char)) (vs : Finset Coord) : List (List Char) :=
  mapGrid g (fun r c ch => if (r, c) ∈ vs ∧ ch = '.' then '·' else ch)

/-- The path-marking loop of `draw_with_path`:
`if g[r][c] not in ('S','E'): g[r][c] = '*'` for every path cell. -/
def markPath (g : List (List Char)) (p : List Coord) : List (List Char) :=
  mapGrid g (fun r c ch => if (r, c) ∈ p ∧ ¬ (ch = 'S' ∨ ch = 'E') then '*' else ch)

/-- The endpoint pass of `draw_with_path`: write `'S'` at `start` unless
that cell already shows `'*'`, then likewise `'E'` at `end`. -/
def placeSE (m : Maze) (g : List (List Char)) : List (List Char) :=
  let g1 := if cellAt g m.start ≠ '*' then setCell g m.start 'S' else g
  if cellAt g1 m.end_ ≠ '*' then setCell g1 m.end_ 'E' else g1

/-- The character grid assembled by `draw_with_path` before joining into
a string.  `if visited:` and `if path:` are Python truthiness tests, so
a `None` or empty collection skips the corresponding pass. -/
def drawGridWith (m : Maze) (path : Option (List Coord)) (visited : Option (Finset Coord)) :
    List (List Char) :=
  let g1 := match visited with
    | some vs => if vs ≠ ∅ then markVisited m.grid vs else m.grid
    | none => m.grid
  let g2 := match path with
    | some p => if p ≠ [] then markPath g1 p else g1
    | none => g1
  placeSE m g2

/-- `Maze.draw_with_path`: the joined string rendering. -/
def draw_with_path (m : Maze) (path : Option (List Coord)) (visited : Option (Finset Coord)) :
    String :=
  String.intercalate "\n" ((drawGridWith m path visited).map (fun row => String.mk row))

/-- Draws consumed by one `Maze.random` call: one per cell. -/
def drawsPer (rows cols : Int) : Nat := rows.toNat * cols.toNat

/-- One generate-plus-search cycle of the `while True` loop in `main`,
at 1-based attempt number `attempt`.  The ongoing random source is
modelled by offsetting the draw stream by the draws all previous
attempts consumed. -/
def attemptOnce (rows cols : Int) (s e : Coord) (density : ℚ) (algo : Bool)
    (rng : Nat → ℚ) (attempt : Nat) :
    Except String (Maze × Option (List Coord) × Finset Coord) :=
  match Maze.random rows cols s e density
      (fun k => rng ((attempt - 1) * drawsPer rows cols + k)) with
  | .error msg => .error msg
  | .ok mz =>
    let r := if algo then bfs mz else dfs_backtracking mz
    .ok (mz, r.1, r.2)

/-- The retry loop of `main`: run a cycle, then break when
`path is not None or not ensure or attempt >= max_tries`, else repeat
with the next attempt number.  `algo = true` selects `bfs`. -/
def retryAux (rows cols : Int) (s e : Coord) (density : ℚ) (algo ensure : Bool)
    (rng : Nat → ℚ) (max_tries : Nat) (attempt : Nat) :
    Except String (Maze × Option (List Coord) × Finset Coord × Nat) :=
  match attemptOnce rows cols s e density algo rng attempt with
  | .error msg => .error msg
  | .ok (mz, p, v) =>
    if p ≠ none ∨ ensure = false ∨ max_tries ≤ attempt then .ok (mz, p, v, attempt)
    else retryAux rows cols s e density algo ensure rng max_tries (attempt + 1)
termination_by max_tries - attempt
decreasing_by simp_wf; omega

/-- The core of `main` after parameter collection: `max_tries = 200`,
first attempt number `1`. -/
def mainSolve (rows cols : Int) (s e : Coord) (density : ℚ) (algo ensure : Bool)
    (rng : Nat → ℚ) :
    Except String (Maze × Option (List Coord) × Finset Coord × Nat) :=
  retryAux rows cols s e density algo ensure rng 200 1

/-- The validity condition the `Maze.random` guards test, in the
positive form the spec uses. -/
def validParams (rows cols : Int) (s e : Coord) (d : ℚ) : Prop :=
  2 ≤ rows ∧ 2 ≤ cols ∧ (0 ≤ s.1 ∧ s.1 < rows ∧ 0 ≤ s.2 ∧ s.2 < cols) ∧
    (0 ≤ e.1 ∧ e.1 < rows ∧ 0 ≤ e.2 ∧ e.2 < cols) ∧ s ≠ e ∧ 0 ≤ d ∧ d < 1

/-- 4-directional adjacency: the two cells differ by exactly one unit
in exactly one of the row or column coordinate. -/
def adjStep (a b : Coord) : Prop :=
  (b.1 - a.1).natAbs + (b.2 - a.2).natAbs = 1

instance (a b : Coord) : Decidable (adjStep a b) := by
  unfold adjStep; infer_instance

/-- Concrete 2×2 fully open maze used by the witnesses below; it is the
output of `Maze.random 2 2 (0,0) (1,1) 0 (fun k => 0)`. -/
def mazeEx : Maze := { grid := [['.', '.'], ['.', '.']], start := (0, 0), end_ := (1, 1) }

/-- `Chain parents start c l` says that iterating `dictGet parents`
from `c` reaches `start`, and `l` is the visited sequence `[c, …,
start]` — exactly the walk `reconstruct_path` performs before
reversing. -/
inductive Chain (parents : List (Coord × Coord)) (start : Coord) : Coord → List Coord → Prop
  | base : Chain parents start start [start]
  | step {c p : Coord} {l : List Coord} : c ≠ start → dictGet parents c = some p →
      Chain parents start p l → Chain parents start c (c :: l)

/-- Cells reachable from `start` in at most `n` neighbour steps.
Neighbour steps always land on in-bounds open cells, but `start` itself
belongs to every ball unconditionally, mirroring the fact that `bfs`
seeds its frontier with `start` without inspecting it. -/
def ball (m : Maze) : Nat → Finset Coord
  | 0 => {m.start}
  | n + 1 => ball m n ∪ (ball m n).biUnion (fun c => (m.neighbors c).toFinset)

/-- An in-bounds cell whose grid character is not `'#'`. -/
def cellOpenInB (m : Maze) (c : Coord) : Prop := inB m c ∧ cellAt m.grid c ≠ '#'

instance (m : Maze) (c : Coord) : Decidable (cellOpenInB m c) := by
  unfold cellOpenInB; infer_instance

/-- The path contract of the spec: starts at `start`, ends at `end`,
each consecutive pair differs by exactly one unit in exactly one
coordinate, every cell is in-bounds and open, and no cell repeats. -/
def validPath (m : Maze) (p : List Coord) : Prop :=
  p.head? = some m.start ∧ p.getLast? = some m.end_ ∧
    List.Chain' adjStep p ∧ (∀ c ∈ p, cellOpenInB m c) ∧ p.Nodup

/-- Exact BFS level: in the `n`-ball but no smaller ball. -/
def lvlExact (m : Maze) (c : Coord) (n : Nat) : Prop :=
  c ∈ ball m n ∧ ∀ k < n, c ∉ ball m k

/-- All in-bounds cells of the grid, as a finite set. -/
def allCells (m : Maze) : Finset Coord :=
  Finset.Icc (0 : Int) ((gridRows m : Int) - 1) ×ˢ Finset.Icc (0 : Int) ((gridCols m : Int) - 1)

/-- The universe bounding everything `bfs` or `dfs` ever visits. -/
def searchUniv (m : Maze) : Finset Coord := insert m.start (allCells m)

/-- Per-visited-cell part of the BFS invariant: every visited cell has a
parent chain back to `start` through visited cells, along true neighbour
edges, whose length is exactly the cell's BFS distance. -/
def BfsChainInv (m : Maze) (ps : List (Coord × Coord)) (vis : Finset Coord) : Prop :=
  ∀ c ∈ vis, ∃ l, Chain ps m.start c l ∧ (∀ x ∈ l, x ∈ vis) ∧
    List.Chain' (fun x y => x ∈ m.neighbors y) l ∧ lvlExact m c (l.length - 1)

/-- The full invariant of the `bfs` loop. -/
def BfsInv (m : Maze) (q : List Coord) (ps : List (Coord × Coord)) (vis : Finset Coord) :
    Prop :=
  (∃ L qa qb, q = qa ++ qb ∧ (∀ a ∈ qa, lvlExact m a L) ∧
    (∀ b ∈ qb, lvlExact m b (L + 1)) ∧ ball m L ⊆ vis) ∧
  BfsChainInv m ps vis ∧
  m.start ∈ vis ∧
  q.Nodup ∧
  (∀ x ∈ q, x ∈ vis) ∧
  (∀ b ∈ vis, b ∉ q → ∀ nb ∈ m.neighbors b, nb ∈ vis) ∧
  (m.end_ ∈ vis → m.end_ ∈ q) ∧
  vis ⊆ searchUniv m

/-- What holds of a `bfsAux` result under the invariant: any returned
path is a genuine shortest path certificate, and a path is returned
whenever `end` is reachable. -/
def bfsResultOk (m : Maze) (r : Option (List Coord) × Finset Coord) : Prop :=
  (∀ p, r.1 = some p → p.head? = some m.start ∧ p.getLast? = some m.end_ ∧
      List.Chain' (fun a b => b ∈ m.neighbors a) p ∧ p.Nodup ∧ (∀ c ∈ p, c ∈ r.2) ∧
      lvlExact m m.end_ (p.length - 1)) ∧
  ((∃ k, m.end_ ∈ ball m k) → ∃ p, r.1 = some p)

/-- The invariant of the recursive `dfs`: every visited cell has a
parent chain back to `start` through visited cells along neighbour
edges, and `found` implies `end` was visited. -/
def DfsInv (m : Maze) (st : DfsState) : Prop :=
  (∀ c ∈ st.visited, ∃ l, Chain st.parents m.start c l ∧ (∀ x ∈ l, x ∈ st.visited) ∧
    List.Chain' (fun x y => x ∈ m.neighbors y) l) ∧
  (st.found = true → m.end_ ∈ st.visited)

/-- Precondition of a `dfs(u)` call: `u` is the root, or `u` was just
recorded in the parent dict with an already-visited parent it neighbours. -/
def DfsPre (m : Maze) (st : DfsState) (u : Coord) : Prop :=
  u = m.start ∨ ∃ pp, dictGet st.parents u = some pp ∧ pp ∈ st.visited ∧ u ∈ m.neighbors pp

/-- The final state of the recursive search inside `dfs_backtracking`. -/
def dfsRun (m : Maze) : DfsState := dfsVisit m (dfsFuel m) ⟨∅, [], false⟩ m.start

instance exceptDecEq {ε α : Type} [DecidableEq ε] [DecidableEq α] : DecidableEq (Except ε α)
  | .error e1, .error e2 =>
    if h : e1 = e2 then isTrue (by rw [h])
    else isFalse (by intro hc; cases hc; exact h rfl)
  | .error _, .ok _ => isFalse (by intro hc; cases hc)
  | .ok _, .error _ => isFalse (by intro hc; cases hc)
  | .ok a1, .ok a2 =>
    if h : a1 = a2 then isTrue (by rw [h])
    else isFalse (by intro hc; cases hc; exact h rfl)

instance tripleDecEq : DecidableEq (Option (List Coord) × Finset Coord × Nat) :=
  inferInstance

instance quadDecEq : DecidableEq (Maze × Option (List Coord) × Finset Coord × Nat) :=
  inferInstance

theorem length_setCell (g : List (List Char)) (rc : Coord) (ch : Char) :
    (setCell g rc ch).length = g.length := by
  simp [setCell]

theorem cellAt_setCell_self (g : List (List Char)) (rc : Coord) (ch : Char)
    (h1 : rc.1.toNat < g.length) (h2 : rc.2.toNat < (g.getD rc.1.toNat []).length) :
    cellAt (setCell g rc ch) rc = ch := by
  simp only [cellAt, setCell, List.getD_eq_getElem?_getD]
  rw [List.getElem?_set_self (by simpa using h1)]
  simp only [Option.getD_some]
  rw [List.getElem?_set_self (by simpa [List.getD_eq_getElem?_getD] using h2)]
  rfl

theorem cellAt_setCell_ne (g : List (List Char)) (rc rc' : Coord) (ch : Char)
    (h : rc.1.toNat ≠ rc'.1.toNat ∨ rc.2.toNat ≠ rc'.2.toNat) :
    cellAt (setCell g rc ch) rc' = cellAt g rc' := by
  rcases h with h | h
  · simp only [cellAt, setCell, List.getD_eq_getElem?_getD]
    rw [List.getElem?_set_ne h]
  · by_cases hr : rc.1.toNat = rc'.1.toNat
    · simp only [cellAt, setCell, List.getD_eq_getElem?_getD, hr]
      by_cases hl : rc'.1.toNat < g.length
      · rw [List.getElem?_set_self hl]
        simp only [Option.getD_some]
        rw [List.getElem?_set_ne h]
      · have hg : g[rc'.1.toNat]? = none := List.getElem?_eq_none (by omega)
        rw [List.getElem?_set, if_pos rfl, if_neg hl, hg]
    · simp only [cellAt, setCell, List.getD_eq_getElem?_getD]
      rw [List.getElem?_set_ne hr]

theorem getD_setCell_row_length (g : List (List Char)) (rc : Coord) (ch : Char) (r : Nat) :
    ((setCell g rc ch).getD r []).length = (g.getD r []).length := by
  simp only [setCell, List.getD_eq_getElem?_getD]
  by_cases hr : rc.1.toNat = r
  · subst hr
    by_cases hl : rc.1.toNat < g.length
    · rw [List.getElem?_set_self hl]
      simp [List.getD_eq_getElem?_getD]
    · rw [List.getElem?_set, if_pos rfl, if_neg hl, List.getElem?_eq_none (by omega)]
  · rw [List.getElem?_set_ne hr]

theorem genGrid_length (rows cols : Nat) (d : ℚ) (rng : Nat → ℚ) :
    (genGrid rows cols d rng).length = rows := by
  simp [genGrid]

theorem genGrid_getD (rows cols : Nat) (d : ℚ) (rng : Nat → ℚ) (r : Nat) (hr : r < rows) :
    (genGrid rows cols d rng).getD r [] =
      (List.range cols).map (fun c => if rng (r * cols + c) < d then '#' else '.') := by
  simp only [genGrid, List.getD_eq_getElem?_getD]
  rw [List.getElem?_map, List.getElem?_range hr]
  rfl

theorem genGrid_row_length (rows cols : Nat) (d : ℚ) (rng : Nat → ℚ) (r : Nat) (hr : r < rows) :
    ((genGrid rows cols d rng).getD r []).length = cols := by
  rw [genGrid_getD rows cols d rng r hr]
  simp

theorem genGrid_cell (rows cols : Nat) (d : ℚ) (rng : Nat → ℚ) (r c : Nat)
    (hr : r < rows) (hc : c < cols) :
    cellAt (genGrid rows cols d rng) (Int.ofNat r, Int.ofNat c) =
      (if rng (r * cols + c) < d then '#' else '.') := by
  show ((genGrid rows cols d rng).getD r []).getD c ' ' = _
  rw [genGrid_getD rows cols d rng r hr]
  simp only [List.getD_eq_getElem?_getD]
  rw [List.getElem?_map, List.getElem?_range hc]
  rfl

theorem maze_random_eq_ok (rows cols : Int) (s e : Coord) (d : ℚ) (rng : Nat → ℚ)
    (h : validParams rows cols s e d) :
    Maze.random rows cols s e d rng =
      .ok { grid := setCell (setCell (genGrid rows.toNat cols.toNat d rng) s '.') e '.',
            start := s, end_ := e } := by
  obtain ⟨h1, h2, h3, h4, h5, h6, h7⟩ := h
  rw [Maze.random, if_neg (by omega), if_neg (by tauto), if_neg (by tauto),
    if_neg h5, if_neg (by tauto)]

theorem maze_random_ok_elim (rows cols : Int) (s e : Coord) (d : ℚ) (rng : Nat → ℚ)
    (mz : Maze) (h : Maze.random rows cols s e d rng = .ok mz) :
    validParams rows cols s e d ∧
      mz = { grid := setCell (setCell (genGrid rows.toNat cols.toNat d rng) s '.') e '.',
             start := s, end_ := e } := by
  rw [Maze.random] at h
  split_ifs at h with h1 h2 h3 h4 h5
  refine ⟨⟨by omega, by omega, by tauto, by tauto, h4, by tauto, by tauto⟩, ?_⟩
  exact (Except.ok.injEq _ _).mp h.symm

theorem adjStep_iff (a b : Coord) :
    adjStep a b ↔
      b = (a.1 + 1, a.2) ∨ b = (a.1 - 1, a.2) ∨ b = (a.1, a.2 + 1) ∨ b = (a.1, a.2 - 1) := by
  obtain ⟨r, c⟩ := a
  obtain ⟨x, y⟩ := b
  simp only [adjStep, Prod.mk.injEq]
  omega

theorem mem_neighbors (m : Maze) (a b : Coord) :
    b ∈ m.neighbors a ↔ adjStep a b ∧ inB m b ∧ cellAt m.grid b ≠ '#' := by
  rw [adjStep_iff]
  simp only [Maze.neighbors, List.mem_filter, List.mem_cons, List.not_mem_nil, or_false,
    decide_eq_true_eq]

theorem not_validParams_iff (rows cols : Int) (s e : Coord) (d : ℚ) :
    ¬ validParams rows cols s e d ↔
      (rows < 2 ∨ cols < 2 ∨ ¬ (0 ≤ s.1 ∧ s.1 < rows ∧ 0 ≤ s.2 ∧ s.2 < cols) ∨
       ¬ (0 ≤ e.1 ∧ e.1 < rows ∧ 0 ≤ e.2 ∧ e.2 < cols) ∨ s = e ∨ d < 0 ∨ 1 ≤ d) := by
  constructor
  · intro h
    by_contra hc
    push_neg at hc
    obtain ⟨hc1, hc2, hc3, hc4, hc5, hc6, hc7⟩ := hc
    exact h ⟨by omega, by omega, hc3, hc4, hc5, hc6, hc7⟩
  · intro h hv
    obtain ⟨v1, v2, v3, v4, v5, v6, v7⟩ := hv
    rcases h with h | h | h | h | h | h | h
    · omega
    · omega
    · exact h v3
    · exact h v4
    · exact v5 h
    · linarith
    · linarith

theorem maze_random_ok_iff (rows cols : Int) (s e : Coord) (d : ℚ) (rng : Nat → ℚ) :
    (∃ mz, Maze.random rows cols s e d rng = .ok mz) ↔ validParams rows cols s e d := by
  constructor
  · rintro ⟨mz, hmz⟩
    exact (maze_random_ok_elim rows cols s e d rng mz hmz).1
  · intro hv
    exact ⟨_, maze_random_eq_ok rows cols s e d rng hv⟩

theorem maze_random_error_iff (rows cols : Int) (s e : Coord) (d : ℚ) (rng : Nat → ℚ) :
    (∃ msg, Maze.random rows cols s e d rng = .error msg) ↔ ¬ validParams rows cols s e d := by
  constructor
  · rintro ⟨msg, hmsg⟩ hv
    rw [maze_random_eq_ok rows cols s e d rng hv] at hmsg
    cases hmsg
  · intro hv
    cases h : Maze.random rows cols s e d rng with
    | error msg => exact ⟨msg, rfl⟩
    | ok mz => exact absurd ((maze_random_ok_elim rows cols s e d rng mz h).1) hv

/-- **C5.**  `Maze.random` fails (returns an `InvalidParameters`-style
error) iff `rows < 2`, or `cols < 2`, or `start` out of bounds, or `end`
out of bounds, or `start = end`, or `density` outside `[0, 1)`; on
failure no maze value is produced (the result is `.error`, not `.ok`),
and on every other input construction succeeds with a maze. -/
theorem c5_random_validation (rows cols : Int) (s e : Coord) (d : ℚ) (rng : Nat → ℚ) :
    ((∃ msg, Maze.random rows cols s e d rng = .error msg) ↔
       (rows < 2 ∨ cols < 2 ∨ ¬ (0 ≤ s.1 ∧ s.1 < rows ∧ 0 ≤ s.2 ∧ s.2 < cols) ∨
        ¬ (0 ≤ e.1 ∧ e.1 < rows ∧ 0 ≤ e.2 ∧ e.2 < cols) ∨ s = e ∨ d < 0 ∨ 1 ≤ d)) ∧
    ((∃ mz, Maze.random rows cols s e d rng = .ok mz) ↔
       ¬ (rows < 2 ∨ cols < 2 ∨ ¬ (0 ≤ s.1 ∧ s.1 < rows ∧ 0 ≤ s.2 ∧ s.2 < cols) ∨
          ¬ (0 ≤ e.1 ∧ e.1 < rows ∧ 0 ≤ e.2 ∧ e.2 < cols) ∨ s = e ∨ d < 0 ∨ 1 ≤ d)) := by
  rw [← not_validParams_iff]
  constructor
  · exact maze_random_error_iff rows cols s e d rng
  · rw [not_not]
    exact maze_random_ok_iff rows cols s e d rng

/-- **C3.**  Whenever `Maze.random` produces a maze, that maze carries
the requested endpoints and both the start cell and the end cell are
open (`'.'`), for every density and every random source. -/
theorem c3_generated_endpoints_open (rows cols : Int) (s e : Coord) (d : ℚ) (rng : Nat → ℚ)
    (mz : Maze) (h : Maze.random rows cols s e d rng = .ok mz) :
    mz.start = s ∧ mz.end_ = e ∧
      cellAt mz.grid mz.start = '.' ∧ cellAt mz.grid mz.end_ = '.' := by
  obtain ⟨⟨h1, h2, h3, h4, h5, _, _⟩, hmz⟩ := maze_random_ok_elim rows cols s e d rng mz h
  subst hmz
  refine ⟨rfl, rfl, ?_, ?_⟩
  · have hne : e.1.toNat ≠ s.1.toNat ∨ e.2.toNat ≠ s.2.toNat := by
      rcases (Prod.ext_iff.not.mp h5) with hne'
      by_contra hc
      push_neg at hc
      exact h5 (Prod.ext_iff.mpr ⟨by omega, by omega⟩)
    rw [cellAt_setCell_ne _ _ _ _ hne]
    apply cellAt_setCell_self
    · rw [genGrid_length]; omega
    · rw [genGrid_row_length]
      · omega
      · omega
  · apply cellAt_setCell_self
    · rw [length_setCell, genGrid_length]; omega
    · rw [getD_setCell_row_length, genGrid_row_length]
      · omega
      · omega

/-- Witness for C3 at concrete parameters. -/
theorem c3_witness :
    mazeEx.start = ((0 : Int), (0 : Int)) ∧ mazeEx.end_ = ((1 : Int), (1 : Int)) ∧
      cellAt mazeEx.grid mazeEx.start = '.' ∧ cellAt mazeEx.grid mazeEx.end_ = '.' :=
  c3_generated_endpoints_open 2 2 (0, 0) (1, 1) 0 (fun _ => 0) mazeEx (by rfl)

/-- **C6.**  `neighbors` yields exactly the 4-adjacent, in-bounds, open
cells, as the fixed-order filter of the candidates down, up, right,
left; being a pure function of the grid, the same list (hence the same
order) results on every invocation. -/
theorem c6_neighbors_characterisation (m : Maze) (rc : Coord) :
    (m.neighbors rc =
      ([(rc.1 + 1, rc.2), (rc.1 - 1, rc.2), (rc.1, rc.2 + 1), (rc.1, rc.2 - 1)] :
        List Coord).filter (fun nb => decide (inB m nb ∧ cellAt m.grid nb ≠ '#'))) ∧
    (m.neighbors rc).Sublist
      ([(rc.1 + 1, rc.2), (rc.1 - 1, rc.2), (rc.1, rc.2 + 1), (rc.1, rc.2 - 1)] : List Coord) ∧
    (∀ b, b ∈ m.neighbors rc ↔ adjStep rc b ∧ inB m b ∧ cellAt m.grid b ≠ '#') :=
  ⟨rfl, List.filter_sublist _, fun b => mem_neighbors m rc b⟩

/-- **C7.**  Two runs fed the same parameter bundle and two separately
owned but identically seeded random sources (i.e. sources producing the
same draw at every index) produce identical `Maze.random` outputs and
identical `mainSolve` outputs (grid, path-or-absent, visited set and
attempt count); moreover generation consumes one draw per cell in
row-major order: cell `(r, c)` is decided by draw `r * cols + c` alone. -/
theorem c7_seed_determinism (rows cols : Int) (s e : Coord) (d : ℚ) (algo ensure : Bool)
    (rng1 rng2 : Nat → ℚ) (h : ∀ k, rng1 k = rng2 k) :
    mainSolve rows cols s e d algo ensure rng1 = mainSolve rows cols s e d algo ensure rng2 ∧
    Maze.random rows cols s e d rng1 = Maze.random rows cols s e d rng2 ∧
    (∀ r c : Nat, r < rows.toNat → c < cols.toNat →
      cellAt (genGrid rows.toNat cols.toNat d rng1) (Int.ofNat r, Int.ofNat c) =
        (if rng1 (r * cols.toNat + c) < d then '#' else '.')) := by
  have hfun : rng1 = rng2 := funext h
  subst hfun
  exact ⟨rfl, rfl, fun r c hr hc => genGrid_cell rows.toNat cols.toNat d rng1 r c hr hc⟩

/-- Witness for C7 at concrete parameters. -/
theorem c7_witness :
    mainSolve 2 2 (0, 0) (1, 1) 0 true false (fun _ => 0) =
        mainSolve 2 2 (0, 0) (1, 1) 0 true false (fun _ => 0) ∧
    Maze.random 2 2 (0, 0) (1, 1) 0 (fun _ => 0) =
        Maze.random 2 2 (0, 0) (1, 1) 0 (fun _ => 0) ∧
    (∀ r c : Nat, r < (2 : Int).toNat → c < (2 : Int).toNat →
      cellAt (genGrid (2 : Int).toNat (2 : Int).toNat 0 (fun _ => 0)) (Int.ofNat r, Int.ofNat c) =
        (if (fun _ => (0 : ℚ)) (r * (2 : Int).toNat + c) < 0 then '#' else '.')) :=
  c7_seed_determinism 2 2 (0, 0) (1, 1) 0 true false (fun _ => 0) (fun _ => 0) (fun _ => rfl)

theorem chain_shape {parents : List (Coord × Coord)} {start c : Coord} {l : List Coord}
    (h : Chain parents start c l) : ∃ t, l = c :: t := by
  cases h with
  | base => exact ⟨[], rfl⟩
  | step _ _ _ => exact ⟨_, rfl⟩

theorem chain_ne_nil {parents : List (Coord × Coord)} {start c : Coord} {l : List Coord}
    (h : Chain parents start c l) : l ≠ [] := by
  obtain ⟨t, ht⟩ := chain_shape h
  simp [ht]

theorem chain_getLast {parents : List (Coord × Coord)} {start c : Coord} {l : List Coord}
    (h : Chain parents start c l) : l.getLast? = some start := by
  induction h with
  | base => rfl
  | step hne hget hch ih =>
    obtain ⟨t, ht⟩ := chain_shape hch
    subst ht
    rw [List.getLast?_cons_cons]
    exact ih

theorem chain_mem_self {parents : List (Coord × Coord)} {start c : Coord} {l : List Coord}
    (h : Chain parents start c l) : c ∈ l := by
  obtain ⟨t, ht⟩ := chain_shape h
  simp [ht]

theorem chain_start_mem {parents : List (Coord × Coord)} {start c : Coord} {l : List Coord}
    (h : Chain parents start c l) : start ∈ l := by
  induction h with
  | base => exact List.mem_singleton_self _
  | step _ _ _ ih => exact List.mem_cons_of_mem _ ih

theorem chain_unique {parents : List (Coord × Coord)} {start c : Coord} {l₁ l₂ : List Coord}
    (h1 : Chain parents start c l₁) (h2 : Chain parents start c l₂) : l₁ = l₂ := by
  induction h1 generalizing l₂ with
  | base =>
    cases h2 with
    | base => rfl
    | step hne _ _ => exact absurd rfl hne
  | step hne hget hch ih =>
    cases h2 with
    | base => exact absurd rfl hne
    | step hne2 hget2 hch2 =>
      have hp : _ = _ := Option.some.inj (hget.symm.trans hget2)
      subst hp
      rw [ih hch2]

theorem chain_suffix {parents : List (Coord × Coord)} {start x c : Coord} {l : List Coord}
    (h : Chain parents start x l) (hc : c ∈ l) : ∃ lc, Chain parents start c lc ∧ lc.IsSuffix l := by
  induction h with
  | base =>
    simp only [List.mem_singleton] at hc
    subst hc
    exact ⟨_, Chain.base, List.suffix_refl _⟩
  | step hne hget hch ih =>
    rcases List.mem_cons.mp hc with hc | hc
    · subst hc
      exact ⟨_, Chain.step hne hget hch, List.suffix_refl _⟩
    · obtain ⟨lc, hlc, hsuf⟩ := ih hc
      exact ⟨lc, hlc, hsuf.trans (List.suffix_cons _ _)⟩

theorem chain_nodup {parents : List (Coord × Coord)} {start c : Coord} {l : List Coord}
    (h : Chain parents start c l) : l.Nodup := by
  induction h with
  | base => simp
  | step hne hget hch ih =>
    refine List.nodup_cons.mpr ⟨?_, ih⟩
    intro hmem
    obtain ⟨lc, hlc, hsuf⟩ := chain_suffix hch hmem
    have hcc : lc = _ :: _ := chain_unique hlc (Chain.step hne hget hch)
    have hlen : lc.length ≤ _ := hsuf.length_le
    rw [hcc] at hlen
    simp only [List.length_cons] at hlen
    omega

theorem dictGet_mem_keys {ps : List (Coord × Coord)} {x y : Coord}
    (h : dictGet ps x = some y) : x ∈ ps.map Prod.fst := by
  induction ps with
  | nil => cases h
  | cons kv rest ih =>
    obtain ⟨k, v⟩ := kv
    rw [dictGet] at h
    split_ifs at h with hk
    · subst hk
      simp
    · simpa using Or.inr (ih h)

theorem chain_dropLast_keys {parents : List (Coord × Coord)} {start c : Coord} {l : List Coord}
    (h : Chain parents start c l) : ∀ x ∈ l.dropLast, ∃ y, dictGet parents x = some y := by
  induction h with
  | base => simp
  | step hne hget hch ih =>
    intro x hx
    rw [List.dropLast_cons_of_ne_nil (chain_ne_nil hch)] at hx
    rcases List.mem_cons.mp hx with hx | hx
    · subst hx
      exact ⟨_, hget⟩
    · exact ih x hx

theorem chain_length_le_parents {parents : List (Coord × Coord)} {start c : Coord}
    {l : List Coord} (h : Chain parents start c l) : l.length ≤ parents.length + 1 := by
  have hnodup : l.dropLast.Nodup := (chain_nodup h).sublist (List.dropLast_sublist l)
  have hsub : l.dropLast ⊆ parents.map Prod.fst := by
    intro x hx
    obtain ⟨y, hy⟩ := chain_dropLast_keys h x hx
    exact dictGet_mem_keys hy
  have hle : l.dropLast.length ≤ (parents.map Prod.fst).length :=
    (hnodup.subperm hsub).length_le
  have h1 : l.dropLast.length = l.length - 1 := List.length_dropLast l
  have h2 : (parents.map Prod.fst).length = parents.length := List.length_map _ _
  omega

theorem chain_stable {parents parents' : List (Coord × Coord)} {start c : Coord}
    {l : List Coord} (hst : ∀ x ∈ l, dictGet parents' x = dictGet parents x)
    (h : Chain parents start c l) : Chain parents' start c l := by
  induction h with
  | base => exact Chain.base
  | step hne hget hch ih =>
    refine Chain.step hne ?_ (ih ?_)
    · rw [hst _ (by simp)]
      exact hget
    · intro x hx
      exact hst x (by simp [hx])

theorem reconstructAux_succ (parents : List (Coord × Coord)) (start : Coord) (fuel : Nat)
    (cur : Coord) (acc : List Coord) :
    reconstructAux parents start (fuel + 1) cur acc =
      if cur = start then some acc.reverse
      else
        match dictGet parents cur with
        | none => none
        | some p => reconstructAux parents start fuel p (acc ++ [p]) := rfl

theorem reconstructAux_of_chain {parents : List (Coord × Coord)} {start c : Coord}
    {l : List Coord} (h : Chain parents start c l) :
    ∀ acc fuel, l.length ≤ fuel →
      reconstructAux parents start fuel c acc = some (acc ++ l.tail).reverse := by
  induction h with
  | base =>
    intro acc fuel hf
    simp only [List.length_singleton] at hf
    obtain ⟨f, rfl⟩ : ∃ f, fuel = f + 1 := ⟨fuel - 1, by omega⟩
    rw [reconstructAux_succ, if_pos rfl]
    simp
  | step hne hget hch ih =>
    rename_i c' p' l'
    intro acc fuel hf
    obtain ⟨t, ht⟩ := chain_shape hch
    simp only [List.length_cons] at hf
    obtain ⟨f, rfl⟩ : ∃ f, fuel = f + 1 := ⟨fuel - 1, by omega⟩
    rw [reconstructAux_succ, if_neg hne, hget]
    show reconstructAux parents start f p' (acc ++ [p']) = _
    rw [ih _ f (by omega)]
    subst ht
    simp

theorem reconstruct_path_of_chain {parents : List (Coord × Coord)} {start c : Coord}
    {l : List Coord} (h : Chain parents start c l) :
    reconstruct_path parents c start = some l.reverse := by
  obtain ⟨t, ht⟩ := chain_shape h
  rw [reconstruct_path, reconstructAux_of_chain h [c] (parents.length + 1)
    (chain_length_le_parents h)]
  subst ht
  simp

theorem ball_subset_succ (m : Maze) (n : Nat) : ball m n ⊆ ball m (n + 1) := by
  rw [ball]
  exact Finset.subset_union_left

theorem ball_mono (m : Maze) {a b : Nat} (h : a ≤ b) : ball m a ⊆ ball m b := by
  induction b with
  | zero => rw [Nat.le_zero.mp h]
  | succ b ih =>
    rcases Nat.lt_or_ge a (b + 1) with hb | hb
    · exact (ih (by omega)).trans (ball_subset_succ m b)
    · rw [Nat.le_antisymm h hb]

theorem start_mem_ball (m : Maze) (n : Nat) : m.start ∈ ball m n :=
  ball_mono m (Nat.zero_le n) (by rw [ball]; exact Finset.mem_singleton_self _)

theorem mem_ball_succ_of_nbr {m : Maze} {n : Nat} {c d : Coord}
    (hc : c ∈ ball m n) (hd : d ∈ m.neighbors c) : d ∈ ball m (n + 1) := by
  rw [ball]
  exact Finset.mem_union_right _ (Finset.mem_biUnion.mpr ⟨c, hc, List.mem_toFinset.mpr hd⟩)

theorem chain'_nbr_of_valid (m : Maze) :
    ∀ p : List Coord, List.Chain' adjStep p → (∀ c ∈ p, cellOpenInB m c) →
      List.Chain' (fun a b => b ∈ m.neighbors a) p := by
  intro p
  induction p with
  | nil => intro _ _; exact List.chain'_nil
  | cons a t ih =>
    intro hch hop
    cases t with
    | nil => simp
    | cons b t' =>
      rw [List.chain'_cons] at hch ⊢
      obtain ⟨hb1, hb2⟩ := hop b (by simp)
      exact ⟨(mem_neighbors m a b).mpr ⟨hch.1, hb1, hb2⟩, ih hch.2 (fun c hc => hop c (by
        simp only [List.mem_cons] at hc ⊢
        tauto))⟩

theorem getLast_mem_ball_of_chain' (m : Maze) :
    ∀ (l : List Coord) (c : Coord) (n : Nat), c ∈ ball m n →
      List.Chain' (fun a b => b ∈ m.neighbors a) (c :: l) →
      (c :: l).getLast (by simp) ∈ ball m (n + l.length) := by
  intro l
  induction l with
  | nil =>
    intro c n hc _
    simpa using hc
  | cons b t ih =>
    intro c n hc hch
    rw [List.chain'_cons] at hch
    have hb : b ∈ ball m (n + 1) := mem_ball_succ_of_nbr hc hch.1
    have := ih b (n + 1) hb hch.2
    simp only [List.length_cons]
    rw [List.getLast_cons (by simp)]
    convert this using 2
    omega

theorem end_mem_ball_of_validPath {m : Maze} {p : List Coord} (h : validPath m p) :
    m.end_ ∈ ball m (p.length - 1) := by
  obtain ⟨hh, hl, hch, hop, _⟩ := h
  obtain ⟨c, t, rfl⟩ : ∃ c t, p = c :: t := by
    cases p with
    | nil => cases hh
    | cons c t => exact ⟨c, t, rfl⟩
  have hc : c = m.start := by simpa using hh
  subst hc
  have hball := getLast_mem_ball_of_chain' m t m.start 0 (by rw [ball]; simp)
    (chain'_nbr_of_valid m _ hch hop)
  have hlast : (m.start :: t).getLast (by simp) = m.end_ := by
    have := List.getLast?_eq_getLast (m.start :: t) (by simp)
    rw [this] at hl
    exact Option.some.inj hl
  rw [hlast] at hball
  simpa using hball

theorem lvlExact_unique {m : Maze} {c : Coord} {a b : Nat}
    (ha : lvlExact m c a) (hb : lvlExact m c b) : a = b := by
  by_contra hne
  rcases Nat.lt_or_ge a b with h | h
  · exact hb.2 a h ha.1
  · exact ha.2 b (by omega) hb.1

theorem mem_allCells (m : Maze) (c : Coord) : c ∈ allCells m ↔ inB m c := by
  obtain ⟨r, c⟩ := c
  simp only [allCells, Finset.mem_product, Finset.mem_Icc, inB]
  omega

theorem card_allCells (m : Maze) : (allCells m).card = gridRows m * gridCols m := by
  rw [allCells, Finset.card_product, Int.card_Icc, Int.card_Icc]
  norm_num

theorem nbr_mem_allCells {m : Maze} {a b : Coord} (h : b ∈ m.neighbors a) :
    b ∈ allCells m :=
  (mem_allCells m b).mpr ((mem_neighbors m a b).mp h).2.1

theorem card_searchUniv_le (m : Maze) :
    (searchUniv m).card ≤ gridRows m * gridCols m + 1 := by
  calc (searchUniv m).card ≤ (allCells m).card + 1 := Finset.card_insert_le _ _
  _ = gridRows m * gridCols m + 1 := by rw [card_allCells]

theorem dictGet_cons_ne {k v : Coord} {ps : List (Coord × Coord)} {x : Coord} (h : k ≠ x) :
    dictGet ((k, v) :: ps) x = dictGet ps x := by
  rw [dictGet, if_neg h]

theorem dictGet_append_right {l1 l2 : List (Coord × Coord)} {x : Coord}
    (h : ∀ kv ∈ l1, kv.1 ≠ x) : dictGet (l1 ++ l2) x = dictGet l2 x := by
  induction l1 with
  | nil => rfl
  | cons kv rest ih =>
    obtain ⟨k, v⟩ := kv
    rw [List.cons_append, dictGet_cons_ne (h (k, v) (by simp))]
    exact ih (fun kv hkv => h kv (by simp [hkv]))

theorem bfs_fold_spec (cur : Coord) :
    ∀ (ns q : List Coord) (ps : List (Coord × Coord)) (vis : Finset Coord),
      ∃ (new : List Coord) (ents : List (Coord × Coord)),
        ns.foldl (bfsStep cur) (q, ps, vis) = (q ++ new, ents ++ ps, vis ∪ ns.toFinset) ∧
        new.toFinset = ns.toFinset \ vis ∧
        new.Nodup ∧
        (∀ x ∈ new, x ∈ ns ∧ x ∉ vis) ∧
        (∀ kv ∈ ents, kv.2 = cur ∧ kv.1 ∉ vis ∧ kv.1 ∈ ns) ∧
        (∀ x : Coord, x ∉ ns.toFinset \ vis → dictGet (ents ++ ps) x = dictGet ps x) ∧
        (∀ x ∈ new, dictGet (ents ++ ps) x = some cur) := by
  intro ns
  induction ns with
  | nil =>
    intro q ps vis
    exact ⟨[], [], by simp, by simp, by simp, by simp, by simp, by simp, by simp⟩
  | cons nb rest ih =>
    intro q ps vis
    by_cases hnb : nb ∈ vis
    · obtain ⟨new, ents, h1, h2, h3, h4, h5, h6, h7⟩ := ih q ps vis
      have hstep : bfsStep cur (q, ps, vis) nb = (q, ps, vis) := by
        simp [bfsStep, hnb]
      have hdiff : rest.toFinset \ vis = (nb :: rest).toFinset \ vis := by
        rw [List.toFinset_cons]
        ext x
        simp only [Finset.mem_sdiff, Finset.mem_insert]
        constructor
        · rintro ⟨hx, hv⟩
          exact ⟨Or.inr hx, hv⟩
        · rintro ⟨rfl | hx, hv⟩
          · exact absurd hnb hv
          · exact ⟨hx, hv⟩
      have hset : vis ∪ rest.toFinset = vis ∪ (nb :: rest).toFinset := by
        rw [List.toFinset_cons]
        ext x
        simp only [Finset.mem_union, Finset.mem_insert]
        constructor
        · rintro (h | h)
          · exact Or.inl h
          · exact Or.inr (Or.inr h)
        · rintro (h | rfl | h)
          · exact Or.inl h
          · exact Or.inl hnb
          · exact Or.inr h
      refine ⟨new, ents, ?_, ?_, h3,
        fun x hx => ⟨List.mem_cons_of_mem _ (h4 x hx).1, (h4 x hx).2⟩,
        fun kv hkv => ⟨(h5 kv hkv).1, (h5 kv hkv).2.1, List.mem_cons_of_mem _ (h5 kv hkv).2.2⟩,
        ?_, h7⟩
      · rw [List.foldl_cons, hstep, h1, hset]
      · rw [h2, hdiff]
      · intro x hx
        exact h6 x (by rw [hdiff]; exact hx)
    · have hstep : bfsStep cur (q, ps, vis) nb =
          (q ++ [nb], (nb, cur) :: ps, insert nb vis) := by
        simp [bfsStep, hnb]
      obtain ⟨new, ents, g1, g2, g3, g4, g5, g6, g7⟩ :=
        ih (q ++ [nb]) ((nb, cur) :: ps) (insert nb vis)
      have hassoc : ∀ l : List (Coord × Coord),
          (ents ++ [(nb, cur)]) ++ l = ents ++ ((nb, cur) :: l) := by
        intro l
        simp
      refine ⟨nb :: new, ents ++ [(nb, cur)], ?_, ?_, ?_, ?_, ?_, ?_, ?_⟩
      · rw [List.foldl_cons, hstep, g1]
        simp only [Prod.mk.injEq]
        refine ⟨by simp, by simp, ?_⟩
        rw [List.toFinset_cons, Finset.insert_union, Finset.union_insert]
      · rw [List.toFinset_cons, List.toFinset_cons, g2]
        ext x
        simp only [Finset.mem_insert, Finset.mem_sdiff, Finset.mem_insert]
        constructor
        · rintro (rfl | ⟨hx, hni⟩)
          · exact ⟨Or.inl rfl, hnb⟩
          · exact ⟨Or.inr hx, fun hv => hni (Or.inr hv)⟩
        · rintro ⟨rfl | hx, hv⟩
          · exact Or.inl rfl
          · by_cases hxb : x = nb
            · exact Or.inl hxb
            · refine Or.inr ⟨hx, ?_⟩
              rintro (rfl | h)
              · exact hxb rfl
              · exact hv h
      · refine List.nodup_cons.mpr ⟨?_, g3⟩
        intro hmem
        exact (g4 nb hmem).2 (Finset.mem_insert_self nb vis)
      · intro x hx
        rcases List.mem_cons.mp hx with rfl | hx
        · exact ⟨List.mem_cons_self _ _, hnb⟩
        · refine ⟨List.mem_cons_of_mem _ (g4 x hx).1, ?_⟩
          intro hv
          exact (g4 x hx).2 (Finset.mem_insert_of_mem hv)
      · intro kv hkv
        rcases List.mem_append.mp hkv with hkv | hkv
        · refine ⟨(g5 kv hkv).1, ?_, List.mem_cons_of_mem _ (g5 kv hkv).2.2⟩
          intro hv
          exact (g5 kv hkv).2.1 (Finset.mem_insert_of_mem hv)
        · rcases List.mem_singleton.mp hkv with rfl
          exact ⟨rfl, hnb, List.mem_cons_self _ _⟩
      · intro x hx
        have hxnb : nb ≠ x := by
          rintro rfl
          exact hx (Finset.mem_sdiff.mpr ⟨by simp, hnb⟩)
        rw [hassoc]
        have hx' : x ∉ rest.toFinset \ insert nb vis := by
          intro hc
          rcases Finset.mem_sdiff.mp hc with ⟨hc1, hc2⟩
          refine hx (Finset.mem_sdiff.mpr ⟨by simp [hc1], fun hv => hc2 ?_⟩)
          exact Finset.mem_insert_of_mem hv
        rw [g6 x hx']
        exact dictGet_cons_ne hxnb
      · intro x hx
        rw [hassoc]
        rcases List.mem_cons.mp hx with rfl | hx
        · have hkeys : ∀ kv ∈ ents, kv.1 ≠ x := by
            intro kv hkv heq
            exact (g5 kv hkv).2.1 (heq ▸ Finset.mem_insert_self x vis)
          rw [dictGet_append_right hkeys, dictGet, if_pos rfl]
        · exact g7 x hx

theorem bfsAux_succ_nil (m : Maze) (fuel : Nat) (ps : List (Coord × Coord))
    (vis : Finset Coord) : bfsAux m (fuel + 1) [] ps vis = (none, vis) := rfl

theorem bfsAux_succ_cons (m : Maze) (fuel : Nat) (cur : Coord) (qs : List Coord)
    (ps : List (Coord × Coord)) (vis : Finset Coord) :
    bfsAux m (fuel + 1) (cur :: qs) ps vis =
      if cur = m.end_ then (reconstruct_path ps m.end_ m.start, vis)
      else
        bfsAux m fuel ((m.neighbors cur).foldl (bfsStep cur) (qs, ps, vis)).1
          ((m.neighbors cur).foldl (bfsStep cur) (qs, ps, vis)).2.1
          ((m.neighbors cur).foldl (bfsStep cur) (qs, ps, vis)).2.2 := rfl

theorem ball_subset_of_closed {m : Maze} {vis : Finset Coord} (hstart : m.start ∈ vis)
    (hclosed : ∀ b ∈ vis, ∀ nb ∈ m.neighbors b, nb ∈ vis) : ∀ k, ball m k ⊆ vis := by
  intro k
  induction k with
  | zero =>
    intro x hx
    rw [ball, Finset.mem_singleton] at hx
    subst hx
    exact hstart
  | succ k ih =>
    intro x hx
    rw [ball] at hx
    rcases Finset.mem_union.mp hx with hx | hx
    · exact ih hx
    · rcases Finset.mem_biUnion.mp hx with ⟨b, hb, hxnb⟩
      exact hclosed b (ih hb) x (List.mem_toFinset.mp hxnb)

theorem bfs_pop_normalize (m : Maze) (cur : Coord) (qs qa qb : List Coord)
    (vis : Finset Coord) (L : Nat)
    (hsplit : cur :: qs = qa ++ qb)
    (hqa : ∀ a ∈ qa, lvlExact m a L) (hqb : ∀ b ∈ qb, lvlExact m b (L + 1))
    (hball : ball m L ⊆ vis)
    (hclosed : ∀ b ∈ vis, b ∉ cur :: qs → ∀ nb ∈ m.neighbors b, nb ∈ vis) :
    ∃ L' qa' qb', qs = qa' ++ qb' ∧ lvlExact m cur L' ∧ (∀ a ∈ qa', lvlExact m a L') ∧
      (∀ b ∈ qb', lvlExact m b (L' + 1)) ∧ ball m L' ⊆ vis := by
  cases qa with
  | nil =>
    have hq : cur :: qs = qb := by simpa using hsplit
    have hballs : ball m (L + 1) ⊆ vis := by
      intro x hx
      rw [ball] at hx
      rcases Finset.mem_union.mp hx with hx | hx
      · exact hball hx
      · rcases Finset.mem_biUnion.mp hx with ⟨b, hbball, hxnb⟩
        have hbnq : b ∉ cur :: qs := by
          intro hbq
          rw [hq] at hbq
          exact (hqb b hbq).2 L (by omega) hbball
        exact hclosed b (hball hbball) hbnq x (List.mem_toFinset.mp hxnb)
    refine ⟨L + 1, qs, [], by simp, ?_, ?_, ?_, hballs⟩
    · exact hqb cur (by rw [← hq]; exact List.mem_cons_self _ _)
    · intro a ha
      exact hqb a (by rw [← hq]; exact List.mem_cons_of_mem _ ha)
    · intro b hb
      cases hb
  | cons a qa' =>
    have ha : a = cur ∧ qs = qa' ++ qb := by
      have h := hsplit
      simp only [List.cons_append, List.cons.injEq] at h
      exact ⟨h.1.symm, h.2⟩
    obtain ⟨rfl, hqs⟩ := ha
    exact ⟨L, qa', qb, hqs, hqa _ (List.mem_cons_self _ _),
      fun x hx => hqa x (List.mem_cons_of_mem _ hx), hqb, hball⟩

theorem bfsAux_spec (m : Maze) :
    ∀ (fuel : Nat) (q : List Coord) (ps : List (Coord × Coord)) (vis : Finset Coord),
      BfsInv m q ps vis →
      2 * ((searchUniv m).card - vis.card) + q.length < fuel →
      vis ⊆ (bfsAux m fuel q ps vis).2 ∧ bfsResultOk m (bfsAux m fuel q ps vis) := by
  intro fuel
  induction fuel with
  | zero =>
    intro q ps vis _ hf
    exact absurd hf (by omega)
  | succ fuel ih =>
    intro q ps vis hinv hf
    obtain ⟨⟨L, qa, qb, hsplit, hqa, hqb, hball⟩, hchains, hstart, hnodup, hqvis,
      hclosed, hendq, huniv⟩ := hinv
    cases q with
    | nil =>
      rw [bfsAux_succ_nil]
      refine ⟨Finset.Subset.refl vis, ?_⟩
      rw [bfsResultOk]
      refine ⟨?_, ?_⟩
      · intro p hp
        exact absurd hp (by simp)
      · rintro ⟨k, hk⟩
        have hcl : ∀ b ∈ vis, ∀ nb ∈ m.neighbors b, nb ∈ vis := by
          intro b hb
          exact hclosed b hb (by simp)
        have hev : m.end_ ∈ vis := ball_subset_of_closed hstart hcl k hk
        exact absurd (hendq hev) (by simp)
    | cons cur qs =>
      have hcurvis : cur ∈ vis := hqvis cur (List.mem_cons_self _ _)
      by_cases hcur : cur = m.end_
      · subst hcur
        rw [bfsAux_succ_cons, if_pos rfl]
        obtain ⟨l, hchain, hcells, hedges, hlvl⟩ := hchains m.end_ hcurvis
        have hrec : reconstruct_path ps m.end_ m.start = some l.reverse :=
          reconstruct_path_of_chain hchain
        rw [hrec]
        obtain ⟨t, rfl⟩ := chain_shape hchain
        refine ⟨Finset.Subset.refl vis, ?_⟩
        rw [bfsResultOk]
        refine ⟨fun p hp => ?_, fun _ => ⟨_, rfl⟩⟩
        have hpl : p = (m.end_ :: t).reverse := (Option.some.inj hp).symm
        subst hpl
        refine ⟨?_, ?_, ?_, ?_, ?_, ?_⟩
        · rw [List.head?_reverse]
          exact chain_getLast hchain
        · rw [List.getLast?_reverse]
          rfl
        · rw [List.chain'_reverse]
          exact hedges
        · exact List.nodup_reverse.mpr (chain_nodup hchain)
        · intro c hc
          exact hcells c (List.mem_reverse.mp hc)
        · simpa using hlvl
      · obtain ⟨L', qa', qb', hqs, hlcur, hqa', hqb', hball'⟩ :=
          bfs_pop_normalize m cur qs qa qb vis L hsplit hqa hqb hball hclosed
        obtain ⟨new, ents, heq, hnewset, hnewnd, hnewmem, hents, hstable, hlook⟩ :=
          bfs_fold_spec cur (m.neighbors cur) qs ps vis
        have hnewvis : ∀ x ∈ new, x ∈ (m.neighbors cur).toFinset \ vis := by
          intro x hx
          rw [← hnewset]
          exact List.mem_toFinset.mpr hx
        have hunfold : bfsAux m (fuel + 1) (cur :: qs) ps vis =
            bfsAux m fuel (qs ++ new) (ents ++ ps)
              (vis ∪ (m.neighbors cur).toFinset) := by
          rw [bfsAux_succ_cons, if_neg hcur, heq]
        rw [hunfold]
        set vis' := vis ∪ (m.neighbors cur).toFinset with hvis'
        have hsubvis : vis ⊆ vis' := Finset.subset_union_left
        have hstab : ∀ c ∈ vis, dictGet (ents ++ ps) c = dictGet ps c := by
          intro c hc
          exact hstable c (fun hmem => (Finset.mem_sdiff.mp hmem).2 hc)
        -- exact level of every newly discovered cell
        have hnewlvl : ∀ x ∈ new, lvlExact m x (L' + 1) := by
          intro x hx
          obtain ⟨hxn, hxv⟩ := hnewmem x hx
          refine ⟨mem_ball_succ_of_nbr hlcur.1 hxn, ?_⟩
          intro k hk hxk
          exact hxv (hball' (ball_mono m (by omega) hxk))
        -- chain invariant for the new state
        have hchains' : BfsChainInv m (ents ++ ps) vis' := by
          intro c hc
          rcases Finset.mem_union.mp hc with hcv | hcn
          · obtain ⟨l, hl1, hl2, hl3, hl4⟩ := hchains c hcv
            refine ⟨l, chain_stable (fun x hx => hstab x (hl2 x hx)) hl1,
              fun x hx => hsubvis (hl2 x hx), hl3, hl4⟩
          · by_cases hcv : c ∈ vis
            · obtain ⟨l, hl1, hl2, hl3, hl4⟩ := hchains c hcv
              refine ⟨l, chain_stable (fun x hx => hstab x (hl2 x hx)) hl1,
                fun x hx => hsubvis (hl2 x hx), hl3, hl4⟩
            · have hcnew : c ∈ new := by
                rw [← List.mem_toFinset, hnewset]
                exact Finset.mem_sdiff.mpr ⟨hcn, hcv⟩
              obtain ⟨lc, hc1, hc2, hc3, hc4⟩ := hchains cur hcurvis
              have hcne : c ≠ m.start := by
                rintro rfl
                exact hcv hstart
              have hchainc : Chain (ents ++ ps) m.start c (c :: lc) :=
                Chain.step hcne (hlook c hcnew)
                  (chain_stable (fun x hx => hstab x (hc2 x hx)) hc1)
              obtain ⟨tc, htc⟩ := chain_shape hc1
              have hLeq : lc.length - 1 = L' := lvlExact_unique hc4 hlcur
              have hlen : lc.length = L' + 1 := by
                have : lc ≠ [] := chain_ne_nil hc1
                have : 0 < lc.length := List.length_pos.mpr this
                omega
              refine ⟨c :: lc, hchainc, ?_, ?_, ?_⟩
              · intro x hx
                rcases List.mem_cons.mp hx with rfl | hx
                · exact hc
                · exact hsubvis (hc2 x hx)
              · rw [htc, List.chain'_cons]
                rw [htc] at hc3
                exact ⟨List.mem_toFinset.mp (Finset.mem_sdiff.mp (hnewvis c hcnew)).1, hc3⟩
              · simp only [List.length_cons, Nat.add_sub_cancel, hlen]
                exact hnewlvl c hcnew
        -- the full invariant for the new state
        have hqsnodup : qs.Nodup := (List.nodup_cons.mp hnodup).2
        have hinv' : BfsInv m (qs ++ new) (ents ++ ps) vis' := by
          refine ⟨⟨L', qa', qb' ++ new, by rw [hqs, List.append_assoc], hqa', ?_, 
            hball'.trans hsubvis⟩, hchains', hsubvis hstart, ?_, ?_, ?_, ?_, ?_⟩
          · intro b hb
            rcases List.mem_append.mp hb with hb | hb
            · exact hqb' b hb
            · exact hnewlvl b hb
          · rw [List.nodup_append]
            refine ⟨hqsnodup, hnewnd, ?_⟩
            intro x hxqs hxnew
            exact (hnewmem x hxnew).2 (hqvis x (List.mem_cons_of_mem _ hxqs))
          · intro x hx
            rcases List.mem_append.mp hx with hx | hx
            · exact hsubvis (hqvis x (List.mem_cons_of_mem _ hx))
            · exact Finset.mem_union_right _ (List.mem_toFinset.mpr (hnewmem x hx).1)
          · intro b hb hbq nb hnb
            rcases Finset.mem_union.mp hb with hbv | hbn
            · by_cases hbcur : b = cur
              · subst hbcur
                exact Finset.mem_union_right _ (List.mem_toFinset.mpr hnb)
              · have hbnotq : b ∉ cur :: qs := by
                  intro hmem
                  rcases List.mem_cons.mp hmem with rfl | hmem
                  · exact hbcur rfl
                  · exact hbq (List.mem_append_left _ hmem)
                exact hsubvis (hclosed b hbv hbnotq nb hnb)
            · by_cases hbv : b ∈ vis
              · by_cases hbcur : b = cur
                · subst hbcur
                  exact Finset.mem_union_right _ (List.mem_toFinset.mpr hnb)
                · have hbnotq : b ∉ cur :: qs := by
                    intro hmem
                    rcases List.mem_cons.mp hmem with rfl | hmem
                    · exact hbcur rfl
                    · exact hbq (List.mem_append_left _ hmem)
                  exact hsubvis (hclosed b hbv hbnotq nb hnb)
              · exfalso
                apply hbq
                apply List.mem_append_right
                rw [← List.mem_toFinset, hnewset]
                exact Finset.mem_sdiff.mpr ⟨hbn, hbv⟩
          · intro hev
            rcases Finset.mem_union.mp hev with hev | hev
            · have := hendq hev
              rcases List.mem_cons.mp this with heq' | hmem
              · exact absurd heq'.symm hcur
              · exact List.mem_append_left _ hmem
            · by_cases hbv : m.end_ ∈ vis
              · have := hendq hbv
                rcases List.mem_cons.mp this with heq' | hmem
                · exact absurd heq'.symm hcur
                · exact List.mem_append_left _ hmem
              · apply List.mem_append_right
                rw [← List.mem_toFinset, hnewset]
                exact Finset.mem_sdiff.mpr ⟨hev, hbv⟩
          · intro x hx
            rcases Finset.mem_union.mp hx with hx | hx
            · exact huniv hx
            · exact Finset.mem_insert_of_mem (nbr_mem_allCells (List.mem_toFinset.mp hx))
        -- the fuel bound for the new state
        have hcard : vis'.card = vis.card + new.length := by
          have hdisj : Disjoint vis new.toFinset := by
            rw [hnewset]
            exact Finset.disjoint_sdiff
          have hun : vis' = vis ∪ new.toFinset := by
            rw [hvis']
            rw [hnewset]
            ext x
            simp only [Finset.mem_union, Finset.mem_sdiff]
            constructor
            · rintro (h | h)
              · exact Or.inl h
              · by_cases hv : x ∈ vis
                · exact Or.inl hv
                · exact Or.inr ⟨h, hv⟩
            · rintro (h | ⟨h, _⟩)
              · exact Or.inl h
              · exact Or.inr h
          rw [hun, Finset.card_union_of_disjoint hdisj, List.toFinset_card_of_nodup hnewnd]
        have huniv' : vis' ⊆ searchUniv m := by
          intro x hx
          rcases Finset.mem_union.mp hx with hx | hx
          · exact huniv hx
          · exact Finset.mem_insert_of_mem (nbr_mem_allCells (List.mem_toFinset.mp hx))
        have hflt : 2 * ((searchUniv m).card - vis'.card) + (qs ++ new).length < fuel := by
          have h1 : vis'.card ≤ (searchUniv m).card := Finset.card_le_card huniv'
          rw [List.length_append]
          simp only [List.length_cons] at hf
          omega
        obtain ⟨hsub2, hok⟩ := ih (qs ++ new) (ents ++ ps) vis' hinv' hflt
        exact ⟨hsubvis.trans hsub2, hok⟩

theorem lvlExact_start (m : Maze) : lvlExact m m.start 0 :=
  ⟨by rw [ball]; exact Finset.mem_singleton_self _, fun k hk => absurd hk (by omega)⟩

theorem bfs_initial_inv (m : Maze) : BfsInv m [m.start] [] {m.start} := by
  refine ⟨⟨0, [m.start], [], by simp, ?_, ?_, ?_⟩, ?_, ?_, ?_, ?_, ?_, ?_, ?_⟩
  · intro a ha
    rw [List.mem_singleton] at ha
    subst ha
    exact lvlExact_start m
  · intro b hb
    cases hb
  · rw [ball]
  · intro c hc
    rw [Finset.mem_singleton] at hc
    subst hc
    exact ⟨[m.start], Chain.base, by simp, by simp, by simpa using lvlExact_start m⟩
  · exact Finset.mem_singleton_self _
  · simp
  · intro x hx
    rw [List.mem_singleton] at hx
    subst hx
    exact Finset.mem_singleton_self _
  · intro b hb hbq
    rw [Finset.mem_singleton] at hb
    subst hb
    exact absurd (List.mem_singleton_self _) hbq
  · intro hev
    rw [Finset.mem_singleton] at hev
    rw [hev]
    exact List.mem_singleton_self _
  · intro x hx
    rw [Finset.mem_singleton] at hx
    subst hx
    exact Finset.mem_insert_self _ _

theorem bfs_fuel_ok (m : Maze) :
    2 * ((searchUniv m).card - ({m.start} : Finset Coord).card) + [m.start].length <
      bfsFuel m := by
  have hU := card_searchUniv_le m
  rw [bfsFuel]
  simp only [Finset.card_singleton, List.length_singleton]
  omega

theorem bfs_spec (m : Maze) : ({m.start} : Finset Coord) ⊆ (bfs m).2 ∧ bfsResultOk m (bfs m) := by
  rw [bfs]
  exact bfsAux_spec m (bfsFuel m) [m.start] [] {m.start} (bfs_initial_inv m) (bfs_fuel_ok m)

theorem chain'_mem_head_or_target {R : Coord → Coord → Prop} :
    ∀ (l : List Coord), List.Chain' R l → ∀ c ∈ l, l.head? = some c ∨ ∃ a, R a c := by
  intro l
  induction l with
  | nil => intro _ c hc; cases hc
  | cons x t ih =>
    intro hch c hc
    rcases List.mem_cons.mp hc with rfl | hc
    · exact Or.inl rfl
    · cases t with
      | nil => cases hc
      | cons y t' =>
        rw [List.chain'_cons] at hch
        rcases ih hch.2 c hc with hh | ⟨a, ha⟩
        · rw [List.head?_cons] at hh
          exact Or.inr ⟨x, (Option.some.inj hh) ▸ hch.1⟩
        · exact Or.inr ⟨a, ha⟩

/-- Any path returned by `bfs` is a valid path whose cells are all
visited, and its length is the exact BFS level of `end`. -/
theorem bfs_some_validPath (m : Maze) (hs : cellOpenInB m m.start) (p : List Coord)
    (hp : (bfs m).1 = some p) :
    validPath m p ∧ (∀ c ∈ p, c ∈ (bfs m).2) ∧ lvlExact m m.end_ (p.length - 1) := by
  obtain ⟨hsub, hok1, hok2⟩ := bfs_spec m
  obtain ⟨hh, hl, hch, hnd, hcells, hlvl⟩ := hok1 p hp
  refine ⟨⟨hh, hl, ?_, ?_, hnd⟩, hcells, hlvl⟩
  · exact hch.imp (fun a b hab => ((mem_neighbors m a b).mp hab).1)
  · intro c hc
    rcases chain'_mem_head_or_target p hch c hc with hhd | ⟨a, ha⟩
    · rw [hh] at hhd
      rw [← Option.some.inj hhd]
      exact hs
    · exact ⟨((mem_neighbors m a c).mp ha).2.1, ((mem_neighbors m a c).mp ha).2.2⟩

theorem validPath_length_pos {m : Maze} {p : List Coord} (h : validPath m p) :
    0 < p.length := by
  cases p with
  | nil => cases h.1
  | cons a t => simp

theorem dfsVisit_succ (m : Maze) (fuel : Nat) (st : DfsState) (u : Coord) :
    dfsVisit m (fuel + 1) st u =
      if st.found then st
      else if u = m.end_ then
        { visited := insert u st.visited, parents := st.parents, found := true }
      else
        (m.neighbors u).foldl
          (fun acc v =>
            if v ∈ acc.visited then acc
            else dfsVisit m fuel { acc with parents := (v, u) :: acc.parents } v)
          { st with visited := insert u st.visited } := rfl

theorem dfs_insert_inv {m : Maze} {st : DfsState} {u : Coord}
    (hinv : DfsInv m st) (hpre : DfsPre m st u) :
    ∀ c ∈ insert u st.visited, ∃ l, Chain st.parents m.start c l ∧
      (∀ x ∈ l, x ∈ insert u st.visited) ∧
      List.Chain' (fun x y => x ∈ m.neighbors y) l := by
  intro c hc
  rcases Finset.mem_insert.mp hc with rfl | hc
  · by_cases hcv : c ∈ st.visited
    · obtain ⟨l, h1, h2, h3⟩ := hinv.1 c hcv
      exact ⟨l, h1, fun x hx => Finset.mem_insert_of_mem (h2 x hx), h3⟩
    · rcases hpre with rfl | ⟨pp, hget, hppvis, hnbr⟩
      · exact ⟨[m.start], Chain.base, by simp, by simp⟩
      · obtain ⟨l, h1, h2, h3⟩ := hinv.1 pp hppvis
        have hcne : c ≠ m.start := by
          rintro rfl
          obtain ⟨l', h1', h2', _⟩ := hinv.1 pp hppvis
          exact hcv (h2' m.start (chain_start_mem h1'))
        obtain ⟨t, rfl⟩ := chain_shape h1
        refine ⟨c :: pp :: t, Chain.step hcne hget h1, ?_, ?_⟩
        · intro x hx
          rcases List.mem_cons.mp hx with rfl | hx
          · exact Finset.mem_insert_self _ _
          · exact Finset.mem_insert_of_mem (h2 x hx)
        · rw [List.chain'_cons]
          exact ⟨hnbr, h3⟩
  · obtain ⟨l, h1, h2, h3⟩ := hinv.1 c hc
    exact ⟨l, h1, fun x hx => Finset.mem_insert_of_mem (h2 x hx), h3⟩

theorem dfsVisit_spec (m : Maze) :
    ∀ (fuel : Nat) (st : DfsState) (u : Coord), DfsInv m st →
      (st.found = false → DfsPre m st u) →
      DfsInv m (dfsVisit m fuel st u) ∧
      st.visited ⊆ (dfsVisit m fuel st u).visited ∧
      (∀ c ∈ st.visited, dictGet (dfsVisit m fuel st u).parents c = dictGet st.parents c) ∧
      (st.found = true → dfsVisit m fuel st u = st) ∧
      (st.found = false → 1 ≤ fuel → u ∈ (dfsVisit m fuel st u).visited) := by
  intro fuel
  induction fuel with
  | zero =>
    intro st u hinv _
    exact ⟨hinv, Finset.Subset.refl _, fun c _ => rfl, fun _ => rfl,
      fun _ hle => absurd hle (by omega)⟩
  | succ fuel ih =>
    intro st u hinv hpre
    rw [dfsVisit_succ]
    cases hfound : st.found with
    | true =>
      rw [if_pos rfl]
      exact ⟨hinv, Finset.Subset.refl _, fun c _ => rfl, fun _ => rfl,
        fun hff => absurd hff (by simp)⟩
    | false =>
      rw [if_neg (by simp)]
      have hpre' := hpre hfound
      by_cases hu : u = m.end_
      · rw [if_pos hu]
        refine ⟨⟨?_, ?_⟩, ?_, ?_, ?_, ?_⟩
        · exact dfs_insert_inv hinv hpre'
        · intro _
          rw [← hu]
          exact Finset.mem_insert_self _ _
        · exact Finset.subset_insert _ _
        · intro c _
          rfl
        · intro hff
          simp at hff
        · intro _ _
          exact Finset.mem_insert_self _ _
      · rw [if_neg hu]
        -- the neighbour loop
        have hfold : ∀ (vs : List Coord) (acc : DfsState), DfsInv m acc →
            u ∈ acc.visited → (∀ v ∈ vs, v ∈ m.neighbors u) →
            DfsInv m (vs.foldl (fun acc v =>
                if v ∈ acc.visited then acc
                else dfsVisit m fuel { acc with parents := (v, u) :: acc.parents } v) acc) ∧
            acc.visited ⊆ (vs.foldl (fun acc v =>
                if v ∈ acc.visited then acc
                else dfsVisit m fuel { acc with parents := (v, u) :: acc.parents } v)
                acc).visited ∧
            (∀ c ∈ acc.visited, dictGet (vs.foldl (fun acc v =>
                if v ∈ acc.visited then acc
                else dfsVisit m fuel { acc with parents := (v, u) :: acc.parents } v)
                acc).parents c = dictGet acc.parents c) := by
          intro vs
          induction vs with
          | nil =>
            intro acc hinv2 _ _
            exact ⟨hinv2, Finset.Subset.refl _, fun c _ => rfl⟩
          | cons v vs' ihv =>
            intro acc hinv2 huacc hvs
            rw [List.foldl_cons]
            by_cases hvacc : v ∈ acc.visited
            · rw [if_pos hvacc]
              exact ihv acc hinv2 huacc (fun w hw => hvs w (List.mem_cons_of_mem _ hw))
            · rw [if_neg hvacc]
              have hvne : ∀ c ∈ acc.visited, v ≠ c := by
                rintro c hc rfl
                exact hvacc hc
              have hinvacc' : DfsInv m { acc with parents := (v, u) :: acc.parents } := by
                refine ⟨?_, hinv2.2⟩
                intro c hc
                obtain ⟨l, h1, h2, h3⟩ := hinv2.1 c hc
                refine ⟨l, chain_stable ?_ h1, h2, h3⟩
                intro x hx
                exact dictGet_cons_ne (hvne x (h2 x hx))
              have hpreacc' : { acc with parents := (v, u) :: acc.parents }.found = false →
                  DfsPre m { acc with parents := (v, u) :: acc.parents } v := by
                intro _
                refine Or.inr ⟨u, ?_, huacc, hvs v (List.mem_cons_self _ _)⟩
                rw [dictGet, if_pos rfl]
              obtain ⟨hi1, hi2, hi3, _, _⟩ :=
                ih { acc with parents := (v, u) :: acc.parents } v hinvacc' hpreacc'
              set res := dfsVisit m fuel { acc with parents := (v, u) :: acc.parents } v
                with hres
              obtain ⟨hj1, hj2, hj3⟩ := ihv res hi1 (hi2 huacc)
                (fun w hw => hvs w (List.mem_cons_of_mem _ hw))
              refine ⟨hj1, ?_, ?_⟩
              · intro x hx
                exact hj2 (hi2 hx)
              · intro c hc
                rw [hj3 c (hi2 hc), hi3 c hc, dictGet_cons_ne (hvne c hc)]
        have hst1inv : DfsInv m ⟨insert u st.visited, st.parents, false⟩ :=
          ⟨dfs_insert_inv hinv hpre', fun hff => by simp at hff⟩
        obtain ⟨hk1, hk2, hk3⟩ := hfold (m.neighbors u) ⟨insert u st.visited, st.parents, false⟩
          hst1inv (Finset.mem_insert_self _ _) (fun w hw => hw)
        refine ⟨hk1, ?_, ?_, ?_, ?_⟩
        · intro x hx
          exact hk2 (Finset.mem_insert_of_mem hx)
        · intro c hc
          exact hk3 c (Finset.mem_insert_of_mem hc)
        · intro hff
          simp at hff
        · intro _ _
          exact hk2 (Finset.mem_insert_self _ _)

theorem dfs_backtracking_def (m : Maze) :
    dfs_backtracking m =
      if (dfsRun m).found then
        (reconstruct_path (dfsRun m).parents m.end_ m.start, (dfsRun m).visited)
      else (none, (dfsRun m).visited) := rfl

theorem dfs_final_spec (m : Maze) :
    DfsInv m (dfsRun m) ∧ m.start ∈ (dfsRun m).visited := by
  have hinit : DfsInv m ⟨∅, [], false⟩ :=
    ⟨fun c hc => absurd hc (Finset.not_mem_empty c), fun h => by simp at h⟩
  obtain ⟨h1, _, _, _, h5⟩ :=
    dfsVisit_spec m (dfsFuel m) ⟨∅, [], false⟩ m.start hinit (fun _ => Or.inl rfl)
  exact ⟨h1, h5 rfl (by rw [dfsFuel]; omega)⟩

theorem dfs_visited_eq (m : Maze) : (dfs_backtracking m).2 = (dfsRun m).visited := by
  rw [dfs_backtracking_def]
  split_ifs <;> rfl

theorem dfs_found_chain (m : Maze) (hfound : (dfsRun m).found = true) :
    ∃ l, Chain (dfsRun m).parents m.start m.end_ l ∧
      (∀ x ∈ l, x ∈ (dfsRun m).visited) ∧
      List.Chain' (fun x y => x ∈ m.neighbors y) l := by
  obtain ⟨hinv, _⟩ := dfs_final_spec m
  exact hinv.1 m.end_ (hinv.2 hfound)

/-- Any path returned by `dfs_backtracking` is a valid path whose cells
are all in the returned visited set. -/
theorem dfs_some_validPath (m : Maze) (hs : cellOpenInB m m.start) (p : List Coord)
    (hp : (dfs_backtracking m).1 = some p) :
    validPath m p ∧ (∀ c ∈ p, c ∈ (dfs_backtracking m).2) := by
  cases hfound : (dfsRun m).found with
  | false =>
    rw [dfs_backtracking_def, if_neg (by rw [hfound]; simp)] at hp
    exact absurd hp (by simp)
  | true =>
    rw [dfs_backtracking_def, if_pos (by rw [hfound])] at hp
    obtain ⟨l, hch, hcells, hedges⟩ := dfs_found_chain m hfound
    rw [reconstruct_path_of_chain hch] at hp
    have hpl : p = l.reverse := (Option.some.inj hp).symm
    subst hpl
    obtain ⟨t, rfl⟩ := chain_shape hch
    have hnb : List.Chain' (fun a b => b ∈ m.neighbors a) (m.end_ :: t).reverse := by
      rw [List.chain'_reverse]
      exact hedges
    have hhd : (m.end_ :: t).reverse.head? = some m.start := by
      rw [List.head?_reverse]
      exact chain_getLast hch
    refine ⟨⟨hhd, ?_, ?_, ?_, ?_⟩, ?_⟩
    · rw [List.getLast?_reverse]
      rfl
    · exact hnb.imp (fun a b hab => ((mem_neighbors m a b).mp hab).1)
    · intro c hc
      rcases chain'_mem_head_or_target _ hnb c hc with hh | ⟨a, ha⟩
      · rw [hhd] at hh
        rw [← Option.some.inj hh]
        exact hs
      · exact ⟨((mem_neighbors m a c).mp ha).2.1, ((mem_neighbors m a c).mp ha).2.2⟩
    · exact List.nodup_reverse.mpr (chain_nodup hch)
    · intro c hc
      rw [dfs_visited_eq]
      exact hcells c (List.mem_reverse.mp hc)

theorem dfs_some_cells (m : Maze) (p : List Coord)
    (hp : (dfs_backtracking m).1 = some p) : ∀ c ∈ p, c ∈ (dfs_backtracking m).2 := by
  cases hfound : (dfsRun m).found with
  | false =>
    rw [dfs_backtracking_def, if_neg (by rw [hfound]; simp)] at hp
    exact absurd hp (by simp)
  | true =>
    rw [dfs_backtracking_def, if_pos (by rw [hfound])] at hp
    obtain ⟨l, hch, hcells, _⟩ := dfs_found_chain m hfound
    rw [reconstruct_path_of_chain hch] at hp
    have hpl : p = l.reverse := (Option.some.inj hp).symm
    subst hpl
    intro c hc
    rw [dfs_visited_eq]
    exact hcells c (List.mem_reverse.mp hc)

/-- **C1.**  On every grid whose start cell is open and in-bounds (a
Grid Model invariant): if any valid path from `start` to `end` exists,
`bfs` returns a path that is itself valid and whose length — hence edge
count, one less — is minimal among all valid paths; if no such path
exists, `bfs` returns the absent value `none` (a first-class absence,
distinct by type from any empty sequence) together with the visited set
it accumulated. -/
theorem c1_bfs_shortest (m : Maze) (hs : cellOpenInB m m.start) :
    ((∃ q, validPath m q) →
      ∃ p, (bfs m).1 = some p ∧ validPath m p ∧ ∀ q, validPath m q → p.length ≤ q.length) ∧
    ((¬ ∃ q, validPath m q) → (bfs m).1 = none) := by
  constructor
  · rintro ⟨q, hq⟩
    obtain ⟨p, hp⟩ := (bfs_spec m).2.2 ⟨q.length - 1, end_mem_ball_of_validPath hq⟩
    obtain ⟨hvalid, hcells, hlvl⟩ := bfs_some_validPath m hs p hp
    refine ⟨p, hp, hvalid, ?_⟩
    intro q' hq'
    have hq'ball := end_mem_ball_of_validPath hq'
    have hple : p.length - 1 ≤ q'.length - 1 := by
      by_contra hlt
      push_neg at hlt
      exact hlvl.2 (q'.length - 1) hlt hq'ball
    have h1 := validPath_length_pos hvalid
    have h2 := validPath_length_pos hq'
    omega
  · intro hnone
    cases hres : (bfs m).1 with
    | none => rfl
    | some p =>
      obtain ⟨hvalid, _, _⟩ := bfs_some_validPath m hs p hres
      exact absurd ⟨p, hvalid⟩ hnone

/-- Witness for C1 on the concrete 2×2 open maze. -/
theorem c1_witness :
    ((∃ q, validPath mazeEx q) →
      ∃ p, (bfs mazeEx).1 = some p ∧ validPath mazeEx p ∧
        ∀ q, validPath mazeEx q → p.length ≤ q.length) ∧
    ((¬ ∃ q, validPath mazeEx q) → (bfs mazeEx).1 = none) :=
  c1_bfs_shortest mazeEx (by decide)

/-- **C2.**  On every grid whose start cell is open and in-bounds:
every non-absent path returned by either search variant starts at
`start`, ends at `end`, moves by exactly one unit in exactly one
coordinate per step, stays on in-bounds open cells, and repeats no
cell. -/
theorem c2_paths_valid (m : Maze) (hs : cellOpenInB m m.start) :
    (∀ p, (bfs m).1 = some p → validPath m p) ∧
    (∀ p, (dfs_backtracking m).1 = some p → validPath m p) :=
  ⟨fun p hp => (bfs_some_validPath m hs p hp).1,
   fun p hp => (dfs_some_validPath m hs p hp).1⟩

/-- Witness for C2 on the concrete 2×2 open maze. -/
theorem c2_witness :
    (∀ p, (bfs mazeEx).1 = some p → validPath mazeEx p) ∧
    (∀ p, (dfs_backtracking mazeEx).1 = some p → validPath mazeEx p) :=
  c2_paths_valid mazeEx (by decide)

/-- **C8.**  For every grid and both variants, the returned visited set
contains `start`, and every cell of a returned path lies in the
returned visited set. -/
theorem c8_visited_invariants (m : Maze) :
    m.start ∈ (bfs m).2 ∧ m.start ∈ (dfs_backtracking m).2 ∧
    (∀ p, (bfs m).1 = some p → ∀ c ∈ p, c ∈ (bfs m).2) ∧
    (∀ p, (dfs_backtracking m).1 = some p → ∀ c ∈ p, c ∈ (dfs_backtracking m).2) := by
  refine ⟨(bfs_spec m).1 (Finset.mem_singleton_self _), ?_, ?_, dfs_some_cells m⟩
  · rw [dfs_visited_eq]
    exact (dfs_final_spec m).2
  · intro p hp c hc
    exact ((bfs_spec m).2.1 p hp).2.2.2.2.1 c hc


/-- Witness for C8: concrete membership facts obtained from the
theorem at the 2×2 open maze. -/
theorem c8_witness :
    mazeEx.start ∈ (bfs mazeEx).2 ∧ mazeEx.start ∈ (dfs_backtracking mazeEx).2 ∧
    ((1 : Int), (0 : Int)) ∈ (bfs mazeEx).2 :=
  ⟨(c8_visited_invariants mazeEx).1, (c8_visited_invariants mazeEx).2.1,
   (c8_visited_invariants mazeEx).2.2.1 [(0, 0), (1, 0), (1, 1)] (by decide) (1, 0) (by decide)⟩

/-- **C10.**  Reconstruction is invoked only once `end` has been
reached, and then it never misses a parent entry and terminates at
`start`: whenever the recursive DFS sets `found`, `reconstruct_path` on
its final parent dict yields a sequence from `start` to `end`; every
path `bfs` returns runs from `start` to `end`; and whenever `end` is
reachable, `bfs` does return a reconstructed path. -/
theorem c10_reconstruction_safe (m : Maze) :
    ((dfsRun m).found = true →
      ∃ p, reconstruct_path (dfsRun m).parents m.end_ m.start = some p ∧
        p.head? = some m.start ∧ p.getLast? = some m.end_) ∧
    (∀ p, (bfs m).1 = some p → p.head? = some m.start ∧ p.getLast? = some m.end_) ∧
    ((∃ k, m.end_ ∈ ball m k) → ∃ p, (bfs m).1 = some p) := by
  refine ⟨?_, ?_, (bfs_spec m).2.2⟩
  · intro hfound
    obtain ⟨l, hch, _, _⟩ := dfs_found_chain m hfound
    obtain ⟨t, rfl⟩ := chain_shape hch
    refine ⟨(m.end_ :: t).reverse, reconstruct_path_of_chain hch, ?_, ?_⟩
    · rw [List.head?_reverse]
      exact chain_getLast hch
    · rw [List.getLast?_reverse]
      rfl
  · intro p hp
    obtain ⟨hh, hl, _⟩ := (bfs_spec m).2.1 p hp
    exact ⟨hh, hl⟩

/-- Witness for C10 at the 2×2 open maze, discharging the found-flag and
reachability hypotheses concretely. -/
theorem c10_witness :
    (∃ p, reconstruct_path (dfsRun mazeEx).parents mazeEx.end_ mazeEx.start = some p ∧
      p.head? = some mazeEx.start ∧ p.getLast? = some mazeEx.end_) ∧
    (∃ p, (bfs mazeEx).1 = some p) :=
  ⟨(c10_reconstruction_safe mazeEx).1 (by decide),
   (c10_reconstruction_safe mazeEx).2.2 ⟨2, by decide⟩⟩

theorem retryAux_eq (rows cols : Int) (s e : Coord) (d : ℚ) (algo ensure : Bool)
    (rng : Nat → ℚ) (max_tries attempt : Nat) :
    retryAux rows cols s e d algo ensure rng max_tries attempt =
      match attemptOnce rows cols s e d algo rng attempt with
      | .error msg => .error msg
      | .ok (mz, p, v) =>
        if p ≠ none ∨ ensure = false ∨ max_tries ≤ attempt then .ok (mz, p, v, attempt)
        else retryAux rows cols s e d algo ensure rng max_tries (attempt + 1) := by
  rw [retryAux]

theorem retryAux_spec (rows cols : Int) (s e : Coord) (d : ℚ) (algo ensure : Bool)
    (rng : Nat → ℚ) (max_tries : Nat) :
    ∀ (k attempt : Nat), max_tries - attempt ≤ k →
      ∀ (mz : Maze) (p : Option (List Coord)) (v : Finset Coord) (a : Nat),
        retryAux rows cols s e d algo ensure rng max_tries attempt = .ok (mz, p, v, a) →
        attempt ≤ a ∧ (a ≤ max_tries ∨ a = attempt) ∧
        (ensure = false → a = attempt) ∧
        attemptOnce rows cols s e d algo rng a = .ok (mz, p, v) ∧
        (∀ b, attempt ≤ b → b < a →
          ∃ mz' v', attemptOnce rows cols s e d algo rng b = .ok (mz', none, v')) ∧
        (p = none → ensure = false ∨ max_tries ≤ a) := by
  intro k
  induction k with
  | zero =>
    intro attempt hk mz p v a hres
    have hge : max_tries ≤ attempt := by omega
    rw [retryAux_eq] at hres
    cases hao : attemptOnce rows cols s e d algo rng attempt with
    | error msg =>
      rw [hao] at hres
      cases hres
    | ok t =>
      obtain ⟨mz', p', v'⟩ := t
      rw [hao] at hres
      dsimp only at hres
      rw [if_pos (Or.inr (Or.inr hge))] at hres
      obtain ⟨h1, h2, h3, h4⟩ :
          mz' = mz ∧ p' = p ∧ v' = v ∧ attempt = a := by
        have := Except.ok.inj hres
        simp only [Prod.mk.injEq] at this
        tauto
      subst h1; subst h2; subst h3; subst h4
      refine ⟨le_refl _, Or.inr rfl, fun _ => rfl, hao, ?_, fun _ => Or.inr hge⟩
      intro b hb1 hb2
      omega
  | succ k ihk =>
    intro attempt hk mz p v a hres
    rw [retryAux_eq] at hres
    cases hao : attemptOnce rows cols s e d algo rng attempt with
    | error msg =>
      rw [hao] at hres
      cases hres
    | ok t =>
      obtain ⟨mz', p', v'⟩ := t
      rw [hao] at hres
      dsimp only at hres
      by_cases hcond : p' ≠ none ∨ ensure = false ∨ max_tries ≤ attempt
      · rw [if_pos hcond] at hres
        obtain ⟨h1, h2, h3, h4⟩ :
            mz' = mz ∧ p' = p ∧ v' = v ∧ attempt = a := by
          have := Except.ok.inj hres
          simp only [Prod.mk.injEq] at this
          tauto
        subst h1; subst h2; subst h3; subst h4
        refine ⟨le_refl _, Or.inr rfl, fun _ => rfl, hao, ?_, ?_⟩
        · intro b hb1 hb2
          omega
        · intro hpnone
          rcases hcond with hc | hc | hc
          · exact absurd hpnone hc
          · exact Or.inl hc
          · exact Or.inr hc
      · rw [if_neg hcond] at hres
        push_neg at hcond
        obtain ⟨hpn, hens, hlt⟩ := hcond
        have hltm : attempt < max_tries := by omega
        obtain ⟨j1, j2, j3, j4, j5, j6⟩ :=
          ihk (attempt + 1) (by omega) mz p v a hres
        refine ⟨by omega, ?_, ?_, j4, ?_, j6⟩
        · rcases j2 with j2 | j2
          · exact Or.inl j2
          · exact Or.inl (by omega)
        · intro hf
          exact absurd hf hens
        · intro b hb1 hb2
          rcases Nat.eq_or_lt_of_le hb1 with rfl | hb1'
          · exact ⟨mz', v', by rw [hao, hpn]⟩
          · exact j5 b (by omega) hb2

/-- **C4.**  The retry loop of `main` performs exactly one
generate-plus-search cycle when `ensure_solvable` is false; when true it
stops at the first cycle yielding a non-absent path or after
`max_attempts = 200` cycles, whichever comes first, so the final attempt
count never exceeds 200; every earlier cycle produced an absent path;
and in every case the returned bundle is the final cycle's grid,
path-or-absent, visited set and attempt count — even when the bound is
exhausted (`p = none` forces `ensure = false` or `a = 200`). -/
theorem c4_retry_loop (rows cols : Int) (s e : Coord) (d : ℚ) (algo ensure : Bool)
    (rng : Nat → ℚ) (mz : Maze) (p : Option (List Coord)) (v : Finset Coord) (a : Nat)
    (h : mainSolve rows cols s e d algo ensure rng = .ok (mz, p, v, a)) :
    1 ≤ a ∧ a ≤ 200 ∧ (ensure = false → a = 1) ∧
    attemptOnce rows cols s e d algo rng a = .ok (mz, p, v) ∧
    (∀ b, 1 ≤ b → b < a →
      ∃ mz' v', attemptOnce rows cols s e d algo rng b = .ok (mz', none, v')) ∧
    (p = none → ensure = false ∨ a = 200) := by
  obtain ⟨j1, j2, j3, j4, j5, j6⟩ :=
    retryAux_spec rows cols s e d algo ensure rng 200 200 1 (by omega) mz p v a h
  have ha200 : a ≤ 200 := by
    rcases j2 with j2 | j2
    · exact j2
    · omega
  refine ⟨j1, ha200, j3, j4, j5, ?_⟩
  intro hpnone
  rcases j6 hpnone with h6 | h6
  · exact Or.inl h6
  · exact Or.inr (by omega)

/-- Witness for C4: one concrete solvable run with `ensure = false`
stops at attempt 1 with the expected grid, path and visited set. -/
theorem c4_witness :
    1 ≤ 1 ∧ 1 ≤ 200 ∧ (false = false → 1 = 1) ∧
    attemptOnce 2 2 (0, 0) (1, 1) 0 true (fun _ => 0) 1 =
      .ok (mazeEx, some [(0, 0), (1, 0), (1, 1)],
        ({(0, 0), (1, 0), (0, 1), (1, 1)} : Finset Coord)) ∧
    (∀ b, 1 ≤ b → b < 1 →
      ∃ mz' v', attemptOnce 2 2 (0, 0) (1, 1) 0 true (fun _ => 0) b = .ok (mz', none, v')) ∧
    (some [((0 : Int), (0 : Int)), (1, 0), (1, 1)] = none → false = false ∨ 1 = 200) :=
  c4_retry_loop 2 2 (0, 0) (1, 1) 0 true false (fun _ => 0) mazeEx
    (some [(0, 0), (1, 0), (1, 1)]) ({(0, 0), (1, 0), (0, 1), (1, 1)} : Finset Coord) 1
    (by rw [mainSolve, retryAux_eq]; decide)

theorem mapGrid_length (g : List (List Char)) (f : Int → Int → Char → Char) :
    (mapGrid g f).length = g.length := by
  simp [mapGrid]

theorem mapGrid_getD (g : List (List Char)) (f : Int → Int → Char → Char) (r : Nat)
    (hr : r < g.length) :
    (mapGrid g f).getD r [] =
      (List.range (g.getD r []).length).map (fun c =>
        f (Int.ofNat r) (Int.ofNat c) ((g.getD r []).getD c ' ')) := by
  simp only [mapGrid, List.getD_eq_getElem?_getD]
  rw [List.getElem?_map, List.getElem?_range hr]
  rfl

theorem mapGrid_row_length (g : List (List Char)) (f : Int → Int → Char → Char) (r : Nat)
    (hr : r < g.length) : ((mapGrid g f).getD r []).length = (g.getD r []).length := by
  rw [mapGrid_getD g f r hr]
  simp

theorem getD_map_range {β : Type} (n : Nat) (f : Nat → β) (c : Nat) (d : β) (hc : c < n) :
    ((List.range n).map f).getD c d = f c := by
  rw [List.getD_eq_getElem?_getD, List.getElem?_map, List.getElem?_range hc]
  rfl

theorem cellAt_mapGrid (g : List (List Char)) (f : Int → Int → Char → Char) (r c : Nat)
    (hr : r < g.length) (hc : c < (g.getD r []).length) :
    cellAt (mapGrid g f) (Int.ofNat r, Int.ofNat c) =
      f (Int.ofNat r) (Int.ofNat c) (cellAt g (Int.ofNat r, Int.ofNat c)) := by
  show ((mapGrid g f).getD r []).getD c ' ' = _
  rw [mapGrid_getD g f r hr, getD_map_range _ _ c ' ' hc]
  rfl

theorem cellAt_mapGrid_int (g : List (List Char)) (f : Int → Int → Char → Char)
    (rc : Coord) (h0 : 0 ≤ rc.1) (h0' : 0 ≤ rc.2)
    (hr : rc.1.toNat < g.length) (hc : rc.2.toNat < (g.getD rc.1.toNat []).length) :
    cellAt (mapGrid g f) rc = f rc.1 rc.2 (cellAt g rc) := by
  obtain ⟨x, y⟩ := rc
  have hx : x = Int.ofNat x.toNat := (Int.toNat_of_nonneg h0).symm
  have hy : y = Int.ofNat y.toNat := (Int.toNat_of_nonneg h0').symm
  rw [hx, hy]
  exact cellAt_mapGrid g f x.toNat y.toNat hr hc

theorem inB_row_bounds {m : Maze} (hrect : ∀ row ∈ m.grid, row.length = gridCols m)
    {cc : Coord} (h : inB m cc) :
    cc.1.toNat < m.grid.length ∧ cc.2.toNat < (m.grid.getD cc.1.toNat []).length := by
  obtain ⟨h1, h2, h3, h4⟩ := h
  have hlt : cc.1.toNat < m.grid.length := by
    rw [gridRows] at h2
    omega
  refine ⟨hlt, ?_⟩
  have hrow : m.grid.getD cc.1.toNat [] ∈ m.grid := by
    rw [List.getD_eq_getElem?_getD, List.getElem?_eq_getElem hlt]
    exact List.getElem_mem _
  rw [hrect _ hrow, gridCols]
  rw [gridCols] at h4
  omega

theorem markPath_star (m : Maze) (g1 : List (List Char)) (p : List Coord)
    (hlen : g1.length = m.grid.length)
    (hrowlen : ∀ r : Nat, r < m.grid.length →
      (g1.getD r []).length = (m.grid.getD r []).length)
    (hval : ∀ cc ∈ p, cellAt g1 cc = '.' ∨ cellAt g1 cc = '·')
    (hrect : ∀ row ∈ m.grid, row.length = gridCols m)
    (hp : ∀ cc ∈ p, inB m cc) :
    ∀ cc ∈ p, cellAt (markPath g1 p) cc = '*' := by
  intro cc hcc
  obtain ⟨hb1, hb2⟩ := inB_row_bounds hrect (hp cc hcc)
  have hb1' : cc.1.toNat < g1.length := by rw [hlen]; exact hb1
  have hb2' : cc.2.toNat < (g1.getD cc.1.toNat []).length := by
    rw [hrowlen _ hb1]; exact hb2
  rw [markPath, cellAt_mapGrid_int g1 _ cc (hp cc hcc).1 (hp cc hcc).2.2.1 hb1' hb2']
  rcases hval cc hcc with hv | hv <;> rw [hv] <;>
    exact if_pos ⟨hcc, by decide⟩

theorem markPath_other (g1 : List (List Char)) (p : List Coord) (cc : Coord)
    (h0 : 0 ≤ cc.1) (h0' : 0 ≤ cc.2)
    (hb1 : cc.1.toNat < g1.length) (hb2 : cc.2.toNat < (g1.getD cc.1.toNat []).length)
    (hnp : cc ∉ p) : cellAt (markPath g1 p) cc = cellAt g1 cc := by
  rw [markPath, cellAt_mapGrid_int g1 _ cc h0 h0' hb1 hb2]
  exact if_neg (fun hcond => hnp hcond.1)

theorem markVisited_cell (m : Maze) (vs : Finset Coord) (cc : Coord)
    (hrect : ∀ row ∈ m.grid, row.length = gridCols m)
    (hin : inB m cc) (hdot : cellAt m.grid cc = '.') :
    cellAt (markVisited m.grid vs) cc = (if cc ∈ vs then '·' else '.') := by
  obtain ⟨hb1, hb2⟩ := inB_row_bounds hrect hin
  rw [markVisited, cellAt_mapGrid_int m.grid _ cc hin.1 hin.2.2.1 hb1 hb2, hdot]
  by_cases hv : cc ∈ vs
  · rw [if_pos ⟨hv, rfl⟩, if_pos hv]
  · rw [if_neg (fun hcond => hv hcond.1), if_neg hv]

theorem placeSE_id (m : Maze) (g : List (List Char))
    (hstar : cellAt g m.start = '*') (hest : cellAt g m.end_ = '*') :
    placeSE m g = g := by
  dsimp only [placeSE]
  have h1 : (if cellAt g m.start ≠ '*' then setCell g m.start 'S' else g) = g :=
    if_neg (by simp [hstar])
  rw [h1, if_neg (by simp [hest])]

theorem drawGridWith_some_eq (m : Maze) (p : List Coord) (vis : Option (Finset Coord))
    (hpe : p ≠ []) :
    drawGridWith m (some p) vis =
      placeSE m (markPath (match vis with
        | some vs => if vs ≠ ∅ then markVisited m.grid vs else m.grid
        | none => m.grid) p) := by
  dsimp only [drawGridWith]
  rw [if_pos hpe]

/-- **C9 (amended).**  In the overlay grid built from a present path,
every path cell — including the start and end cells — is marked `'*'`;
`'S'`/`'E'` are written only to cells not already holding `'*'`, so with
a present path containing both endpoints they do not appear over path
cells.  When a visited overlay is requested, every visited open cell not
on the path is marked `'·'`. -/
theorem c9_overlay_markings (m : Maze) (p : List Coord) (vis : Option (Finset Coord))
    (hrect : ∀ row ∈ m.grid, row.length = gridCols m)
    (hp : ∀ cc ∈ p, inB m cc ∧ cellAt m.grid cc = '.')
    (hsp : m.start ∈ p) (hep : m.end_ ∈ p) :
    (∀ cc ∈ p, cellAt (drawGridWith m (some p) vis) cc = '*') ∧
    (∀ vs, vis = some vs → ∀ cc ∈ vs, inB m cc → cellAt m.grid cc = '.' → cc ∉ p →
      cellAt (drawGridWith m (some p) vis) cc = '·') := by
  have hpe : p ≠ [] := by rintro rfl; cases hsp
  rw [drawGridWith_some_eq m p vis hpe]
  set g1 := (match vis with
    | some vs => if vs ≠ ∅ then markVisited m.grid vs else m.grid
    | none => m.grid) with hg1
  have hlen : g1.length = m.grid.length := by
    rw [hg1]
    rcases vis with _ | vs
    · rfl
    · dsimp only
      split_ifs
      · exact mapGrid_length _ _
      · rfl
  have hrowlen : ∀ r : Nat, r < m.grid.length →
      (g1.getD r []).length = (m.grid.getD r []).length := by
    intro r hr
    rw [hg1]
    rcases vis with _ | vs
    · rfl
    · dsimp only
      split_ifs
      · exact mapGrid_row_length _ _ r hr
      · rfl
  have hval : ∀ cc, inB m cc → cellAt m.grid cc = '.' →
      cellAt g1 cc = '.' ∨ cellAt g1 cc = '·' := by
    intro cc hin hdot
    rw [hg1]
    rcases vis with _ | vs
    · exact Or.inl hdot
    · dsimp only
      split_ifs
      · rw [markVisited_cell m vs cc hrect hin hdot]
        split_ifs
        · exact Or.inr rfl
        · exact Or.inl rfl
      · exact Or.inl hdot
  have hstarcells : ∀ cc ∈ p, cellAt (markPath g1 p) cc = '*' :=
    markPath_star m g1 p hlen hrowlen
      (fun cc hcc => hval cc (hp cc hcc).1 (hp cc hcc).2)
      hrect (fun cc hcc => (hp cc hcc).1)
  have hid : placeSE m (markPath g1 p) = markPath g1 p :=
    placeSE_id m _ (hstarcells m.start hsp) (hstarcells m.end_ hep)
  rw [hid]
  refine ⟨hstarcells, ?_⟩
  intro vs hvs cc hccv hin hdot hnp
  obtain ⟨hb1, hb2⟩ := inB_row_bounds hrect hin
  have hb1' : cc.1.toNat < g1.length := by rw [hlen]; exact hb1
  have hb2' : cc.2.toNat < (g1.getD cc.1.toNat []).length := by
    rw [hrowlen _ hb1]; exact hb2
  rw [markPath_other g1 p cc hin.1 hin.2.2.1 hb1' hb2' hnp]
  subst hvs
  rw [hg1]
  dsimp only
  have hvne : vs ≠ ∅ := by
    rintro rfl
    exact absurd hccv (Finset.not_mem_empty cc)
  rw [if_pos hvne, markVisited_cell m vs cc hrect hin hdot, if_pos hccv]

/-- Counterexample to C9 as stated: with the present path
`[(0,0),(1,0),(1,1)]` on the fully open 2×2 maze, the start cell of the
rendering shows `'*'`, not `'S'`, and the end cell shows `'*'`, not
`'E'` — path marking happens before `S`/`E` placement and `S`/`E` are
suppressed on `'*'` cells, so start and end do **not** show `S`/`E`. -/
theorem c9_counterexample :
    cellAt (drawGridWith mazeEx (some [(0, 0), (1, 0), (1, 1)]) none) (0, 0) = '*' ∧
    ¬ cellAt (drawGridWith mazeEx (some [(0, 0), (1, 0), (1, 1)]) none) (0, 0) = 'S' ∧
    ¬ cellAt (drawGridWith mazeEx (some [(0, 0), (1, 0), (1, 1)]) none) (1, 1) = 'E' ∧
    draw_with_path mazeEx (some [(0, 0), (1, 0), (1, 1)]) none = "*.\n**" := by
  decide

/-- Witness for the amended C9 at the 2×2 open maze. -/
theorem c9_witness :
    (∀ cc ∈ [((0 : Int), (0 : Int)), (1, 0), (1, 1)],
      cellAt (drawGridWith mazeEx (some [(0, 0), (1, 0), (1, 1)]) none) cc = '*') ∧
    (∀ vs, (none : Option (Finset Coord)) = some vs → ∀ cc ∈ vs, inB mazeEx cc →
      cellAt mazeEx.grid cc = '.' → cc ∉ [((0 : Int), (0 : Int)), (1, 0), (1, 1)] →
      cellAt (drawGridWith mazeEx (some [(0, 0), (1, 0), (1, 1)]) none) cc = '·') :=
  c9_overlay_markings mazeEx [(0, 0), (1, 0), (1, 1)] none (by decide) (by decide)
    (by decide) (by decide)
